import Mathlib

/-!
# Verification of the ubchat indexing pipeline

A shallow embedding, in Lean 4, of the core of the `src/indexer` package:
the text chunker (`chunking/text_chunker.py`), the context enricher
(`context/context_generator.py`), the embedding generator
(`embeddings/embedding_generator.py`) and the batch orchestration loop
(`main_indexer.py`).

Modelling conventions:

* Python `str` values manipulated character-by-character by the chunker are
  modelled as `List Char`; identifiers and annotation strings are `String`.
* The tiktoken token counter is an explicit parameter
  `count : List Char → Nat` (the Python class receives the encoding name in
  its constructor; every algorithm below is parametric in the counter
  exactly as the code is parametric in the encoding).
* Calls to external services (OpenAI embeddings / chat completions, the
  Oracle fetch in the orchestrator) are modelled as oracle functions
  returning `Option`/`Except`; `none`/`error` models the call raising after
  its retries are exhausted (or its response failing to parse).
* Machine integers are `Nat`/`Int`; Python floats never enter any control
  flow here, so vector entries are represented by `ℚ`.
* The fixed-size chunking loop is a `while` loop; it is embedded with
  explicit fuel, `none` meaning the loop did not finish within the given
  fuel (the driver supplies fuel `text.length + 1`, which is proved
  sufficient whenever `chunk_size ≥ 1`).
-/

/-- Python whitespace test (`str.strip`, `str.split()` semantics), restricted
to the ASCII whitespace characters that occur in this code base. -/
def pyWs (c : Char) : Bool :=
  c = ' ' ∨ c = '\n' ∨ c = '\t' ∨ c = '\r' ∨ c = '\x0b' ∨ c = '\x0c'

/-- Python `text[a:b]` for `0 ≤ a ≤ b` (clamping at the ends). -/
def pySlice (s : List Char) (a b : Nat) : List Char :=
  (s.take b).drop a

/-- Python `str.strip()`: drop leading and trailing whitespace. -/
def pyStrip (s : List Char) : List Char :=
  ((s.dropWhile pyWs).reverse.dropWhile pyWs).reverse

/-- Python `text.rfind(c, a, b)`: the largest index `i` with
`a ≤ i < min b (length text)` and `text[i] = c`, if any. -/
def pyRfind (c : Char) (text : List Char) (a b : Nat) : Option Nat :=
  let region := pySlice text a b
  (region.reverse.findIdx? (· = c)).map (fun j => a + region.length - 1 - j)

/-- Index of the first occurrence of `sep` in `s` (Python `s.find(sep)`),
`none` when `sep` does not occur.  For nonempty `sep` this matches Python. -/
def firstOccur (sep : List Char) : List Char → Option Nat
  | [] => if sep = [] then some 0 else none
  | c :: rest =>
    if sep.isPrefixOf (c :: rest) then some 0
    else (firstOccur sep rest).map (· + 1)

/-- One step of Python `s.split(sep)`: fuel-indexed worker.  Each recursive
call consumes at least one character of `s` when `sep` is nonempty, so fuel
`s.length + 1` always suffices (`pySplit` below). -/
def pySplitAux (sep : List Char) : Nat → List Char → List (List Char)
  | 0, s => [s]
  | fuel + 1, s =>
    match firstOccur sep s with
    | none => [s]
    | some i => s.take i :: pySplitAux sep fuel (s.drop (i + sep.length))

/-- Python `s.split(sep)` for a nonempty separator `sep`. -/
def pySplit (sep s : List Char) : List (List Char) :=
  pySplitAux sep (s.length + 1) s

/-- Python `sep.join(l)`. -/
def joinSep (sep : List Char) : List (List Char) → List Char
  | [] => []
  | [x] => x
  | x :: y :: xs => x ++ sep ++ joinSep sep (y :: xs)

/-- Python `text.find(sub, start)` returning `-1` when absent; a negative
`start` is interpreted from the end of the string, as in Python. -/
def pyFindFrom (text sub : List Char) (start : Int) : Int :=
  let s : Nat := (max 0 (if start < 0 then (text.length : Int) + start else start)).toNat
  match (List.range (text.length + 1)).find?
      (fun k => s + k ≤ text.length ∧ sub.isPrefixOf (text.drop (s + k))) with
  | some k => (s + k : Nat)
  | none => -1

/-- A Python metadata value, as discriminated by
`isinstance(v, (str, int, float, bool))` in `embedding_generator.py`.
The `isinstance` filter only inspects the outermost type tag, so the
non-scalar constructors carry flat payloads (a list of strings, a
string-to-string dict, `None`) — enough to represent every shape the
filter distinguishes. -/
inductive PyVal where
  | vstr : String → PyVal
  | vint : Int → PyVal
  | vfloat : ℚ → PyVal
  | vbool : Bool → PyVal
  | vnone : PyVal
  | vlist : List String → PyVal
  | vdict : List (String × String) → PyVal
  deriving DecidableEq, Repr

/-- `isinstance(v, (str, int, float, bool))`. -/
def PyVal.isScalar : PyVal → Bool
  | .vstr _ => true
  | .vint _ => true
  | .vfloat _ => true
  | .vbool _ => true
  | _ => false

/-- Python `{**m, k: v}` on an association list representing a dict:
replace the value in place when the key is present, append otherwise. -/
def pyDictSet (m : List (String × PyVal)) (k : String) (v : PyVal) :
    List (String × PyVal) :=
  if m.any (fun p => p.1 = k) then
    m.map (fun p => if p.1 = k then (k, v) else p)
  else m ++ [(k, v)]

/-- The `Chunk` dataclass of `chunking/text_chunker.py`. -/
structure Chunk where
  text : List Char
  chunk_index : Nat
  doc_id : String
  start_char : Int
  end_char : Int
  token_count : Nat
  metadata : List (String × PyVal)
  deriving DecidableEq, Repr

/-! ## Fixed-size strategy (`_chunk_fixed_size`) -/

/-- The chunk boundary of one iteration of `_chunk_fixed_size`:
`end = start + chunk_size`, pulled back to the last space strictly after
`start` when that does not reach the end of the text. -/
def fixedEnd (chunkSize : Nat) (text : List Char) (start : Nat) : Nat :=
  let e0 := start + chunkSize
  if e0 < text.length then
    match pyRfind ' ' text start e0 with
    | some i => if start < i then i else e0
    | none => e0
  else e0

/-- The next window start of `_chunk_fixed_size`:
`start = end - overlap if end - overlap > start else end`. -/
def fixedNextStart (chunkSize overlap : Nat) (text : List Char) (start : Nat) :
    Nat :=
  let e := fixedEnd chunkSize text start
  if start < e - overlap then e - overlap else e

/-- The `while start < len(text)` loop of `_chunk_fixed_size`, with explicit
fuel; `none` models the loop not terminating within the fuel. -/
def chunkFixedAux (count : List Char → Nat) (chunkSize overlap : Nat)
    (docId : String) (md : List (String × PyVal)) (text : List Char) :
    Nat → Nat → Nat → Option (List Chunk)
  | 0, start, _ => if start < text.length then none else some []
  | fuel + 1, start, idx =>
    if start < text.length then
      let e := fixedEnd chunkSize text start
      let ct := pyStrip (pySlice text start e)
      let nxt := fixedNextStart chunkSize overlap text start
      if ct = [] then
        chunkFixedAux count chunkSize overlap docId md text fuel nxt idx
      else
        (chunkFixedAux count chunkSize overlap docId md text fuel nxt (idx + 1)).map
          (fun rest =>
            { text := ct
              chunk_index := idx
              doc_id := docId
              start_char := (start : Int)
              end_char := (e : Int)
              token_count := count ct
              metadata := pyDictSet md "strategy" (.vstr "fixed_size") } :: rest)
    else some []

/-- `_chunk_fixed_size(text, doc_id, metadata)`. -/
def chunkFixedSize (count : List Char → Nat) (chunkSize overlap : Nat)
    (docId : String) (md : List (String × PyVal)) (text : List Char) :
    Option (List Chunk) :=
  chunkFixedAux count chunkSize overlap docId md text (text.length + 1) 0 0

/-! ## Recursive strategy (`_chunk_recursive` / `_split_text`) -/

/-- The accumulation loop of `_split_text` over the pieces of one
`text.split(separator)`: state `(result, current_chunk, current_size)`.
`recur` is the recursive call `_split_text(split, remaining_separators)`. -/
def splitFold (count : List Char → Nat) (chunkSize : Nat) (sep : List Char)
    (recur : List Char → List (List Char)) :
    List (List Char) → List (List Char) → List (List Char) → Nat →
    List (List Char)
  | [], result, cur, _ =>
    if cur = [] then result else result ++ [joinSep sep cur]
  | s :: more, result, cur, size =>
    if chunkSize < count s then
      let result1 := if cur = [] then result else result ++ [joinSep sep cur]
      splitFold count chunkSize sep recur more (result1 ++ recur s) [] 0
    else if chunkSize < size + count s then
      if cur = [] then splitFold count chunkSize sep recur more result cur size
      else
        splitFold count chunkSize sep recur more
          (result ++ [joinSep sep cur]) [s] (count s)
    else
      splitFold count chunkSize sep recur more result (cur ++ [s])
        (size + count s)

/-- One level of `_split_text`: the body for a nonempty separator list whose
head is `sep`, with `recur` the splitter for the remaining separators. -/
def splitLevel (count : List Char → Nat) (chunkSize : Nat) (sep : List Char)
    (recur : List Char → List (List Char)) (text : List Char) :
    List (List Char) :=
  if count text ≤ chunkSize then [text]
  else splitFold count chunkSize sep recur (pySplit sep text) [] [] 0

/-- `_split_text(text, separators)`.  The Python function recurses on the
tail of the separator list; the recursion is realised as a right fold over
the separators, whose base (`separators == []`) returns `[text]`. -/
def splitText (count : List Char → Nat) (chunkSize : Nat)
    (seps : List (List Char)) : List Char → List (List Char) :=
  seps.foldr (fun sep recur => splitLevel count chunkSize sep recur)
    (fun text => [text])

/-- The separator list of `_chunk_recursive`:
`["\n\n", "\n", ". ", " "]`. -/
def recSeps : List (List Char) :=
  [['\n', '\n'], ['\n'], ['.', ' '], [' ']]

/-- The emission loop of `_chunk_recursive`: enumerate the pieces, skip
those that strip to nothing, recover offsets with `text.find` from the
previous end position. -/
def chunkRecEmit (count : List Char → Nat) (docId : String)
    (md : List (String × PyVal)) (text : List Char) :
    List (List Char) → Nat → Int → List Chunk
  | [], _, _ => []
  | p :: ps, idx, pos =>
    let ct := pyStrip p
    if ct = [] then chunkRecEmit count docId md text ps (idx + 1) pos
    else
      let s := pyFindFrom text ct pos
      let e := s + (ct.length : Int)
      { text := ct
        chunk_index := idx
        doc_id := docId
        start_char := s
        end_char := e
        token_count := count ct
        metadata := pyDictSet md "strategy" (.vstr "recursive") }
        :: chunkRecEmit count docId md text ps (idx + 1) e

/-- `_chunk_recursive(text, doc_id, metadata)`. -/
def chunkRecursive (count : List Char → Nat) (chunkSize : Nat)
    (docId : String) (md : List (String × PyVal)) (text : List Char) :
    List Chunk :=
  chunkRecEmit count docId md text (splitText count chunkSize recSeps text) 0 0

/-! ## Sentence strategy (`_chunk_by_sentence`) -/

/-- `re.split(r'(?<=[.!?])\s+', text)` as a character-level state machine:
`skip = true` while consuming a greedy whitespace run that started right
after a sentence terminator; `prev` is the previously consumed character
(the lookbehind), `acc` the current piece in reverse. -/
def sentSplitGo : List Char → Bool → Char → List Char → List (List Char)
  | [], _, _, acc => [acc.reverse]
  | c :: rest, true, _, acc =>
    if pyWs c then sentSplitGo rest true c acc
    else sentSplitGo rest false c (c :: acc)
  | c :: rest, false, prev, acc =>
    if pyWs c ∧ (prev = '.' ∨ prev = '!' ∨ prev = '?') then
      acc.reverse :: sentSplitGo rest true c []
    else sentSplitGo rest false c (c :: acc)

/-- The sentence split of `_chunk_by_sentence`; position 0 has no
preceding character, hence the null dummy lookbehind. -/
def sentSplit (text : List Char) : List (List Char) :=
  sentSplitGo text false '\x00' []

/-- Python `s.split()` (no argument): split on whitespace runs, dropping
empty pieces. -/
def splitWsAux : List Char → List Char → List (List Char)
  | [], acc => if acc = [] then [] else [acc.reverse]
  | c :: rest, acc =>
    if pyWs c then
      if acc = [] then splitWsAux rest []
      else acc.reverse :: splitWsAux rest []
    else splitWsAux rest (c :: acc)

/-- Python `s.split()`. -/
def splitWs (s : List Char) : List (List Char) :=
  splitWsAux s []

/-- One chunk emission of `_chunk_by_sentence`: join the accumulated pieces
with a single space, recover the offset with `text.find` from the previous
end, and return the chunk together with the new search position. -/
def sentEmit (docId : String) (md : List (String × PyVal)) (text : List Char)
    (idx : Nat) (pos : Int) (cur : List (List Char)) (tok : Nat) :
    Chunk × Int :=
  let ct := joinSep [' '] cur
  let s := pyFindFrom text ct pos
  let e := s + (ct.length : Int)
  ({ text := ct
     chunk_index := idx
     doc_id := docId
     start_char := s
     end_char := e
     token_count := tok
     metadata := pyDictSet md "strategy" (.vstr "sentence") }, e)

/-- The inner word loop of `_chunk_by_sentence` (splitting one oversized
sentence); state `(chunks, chunk_index, char_position, temp_chunk,
temp_tokens)`. -/
def sentWords (count : List Char → Nat) (chunkSize : Nat) (docId : String)
    (md : List (String × PyVal)) (text : List Char) :
    List (List Char) → List Chunk → Nat → Int → List (List Char) → Nat →
    List Chunk × Nat × Int × List (List Char) × Nat
  | [], chunks, idx, pos, temp, ttok => (chunks, idx, pos, temp, ttok)
  | w :: ws, chunks, idx, pos, temp, ttok =>
    let wt := count w
    if chunkSize < ttok + wt then
      if temp = [] then
        sentWords count chunkSize docId md text ws chunks idx pos [w] wt
      else
        let emitted := sentEmit docId md text idx pos temp ttok
        sentWords count chunkSize docId md text ws (chunks ++ [emitted.1])
          (idx + 1) emitted.2 [w] wt
    else
      sentWords count chunkSize docId md text ws chunks idx pos
        (temp ++ [w]) (ttok + wt)

/-- The main sentence loop of `_chunk_by_sentence`; state
`(chunks, current_chunk, current_tokens, chunk_index, char_position)`. -/
def sentLoop (count : List Char → Nat) (chunkSize : Nat) (docId : String)
    (md : List (String × PyVal)) (text : List Char) :
    List (List Char) → List Chunk → List (List Char) → Nat → Nat → Int →
    List Chunk
  | [], chunks, cur, ctok, idx, pos =>
    if cur = [] then chunks
    else chunks ++ [(sentEmit docId md text idx pos cur ctok).1]
  | snt :: rest, chunks, cur, ctok, idx, pos =>
    let s := pyStrip snt
    if s = [] then sentLoop count chunkSize docId md text rest chunks cur ctok idx pos
    else
      let st := count s
      if chunkSize < st then
        let flushed :=
          if cur = [] then (chunks, idx, pos, cur, ctok)
          else
            let emitted := sentEmit docId md text idx pos cur ctok
            (chunks ++ [emitted.1], idx + 1, emitted.2,
              ([] : List (List Char)), 0)
        let afterWords :=
          sentWords count chunkSize docId md text (splitWs s)
            flushed.1 flushed.2.1 flushed.2.2.1 [] 0
        let temp := afterWords.2.2.2.1
        let cur2 := if temp = [] then flushed.2.2.2.1 else temp
        let ctok2 := if temp = [] then flushed.2.2.2.2 else afterWords.2.2.2.2
        sentLoop count chunkSize docId md text rest afterWords.1 cur2 ctok2
          afterWords.2.1 afterWords.2.2.1
      else if chunkSize < ctok + st then
        let flushed :=
          if cur = [] then (chunks, idx, pos)
          else
            let emitted := sentEmit docId md text idx pos cur ctok
            (chunks ++ [emitted.1], idx + 1, emitted.2)
        sentLoop count chunkSize docId md text rest flushed.1 [s] st
          flushed.2.1 flushed.2.2
      else
        sentLoop count chunkSize docId md text rest chunks (cur ++ [s])
          (ctok + st) idx pos

/-- `_chunk_by_sentence(text, doc_id, metadata)`. -/
def chunkSentence (count : List Char → Nat) (chunkSize : Nat)
    (docId : String) (md : List (String × PyVal)) (text : List Char) :
    List Chunk :=
  sentLoop count chunkSize docId md text (sentSplit text) [] [] 0 0 0

/-- The `ChunkStrategy` enum. -/
inductive ChunkStrategy where
  | fixed_size | semantic | recursive | sentence
  deriving DecidableEq, Repr

/-- `chunk_document(text, doc_id, metadata)`: strategy dispatch.  The
semantic strategy logs a warning and falls back to the recursive one. -/
def chunkDocument (count : List Char → Nat) (chunkSize overlap : Nat)
    (docId : String) (md : List (String × PyVal)) (text : List Char) :
    ChunkStrategy → Option (List Chunk)
  | .fixed_size => chunkFixedSize count chunkSize overlap docId md text
  | .semantic => some (chunkRecursive count chunkSize docId md text)
  | .recursive => some (chunkRecursive count chunkSize docId md text)
  | .sentence => some (chunkSentence count chunkSize docId md text)

/-! ## Context enricher (`context/context_generator.py`)

The external LLM call (`_call_openai` / `_call_anthropic`, each wrapped in a
tenacity retry) is an oracle `Chunk → Option LLMResp`: `some r` models a
response that parsed into a structured object (with `r`'s fields the result
of `result.get(key, default)` lookups), `none` models retries exhausted or
an unparsable response. -/

/-- The parsed LLM response: each field is `none` when the key is missing
from the returned object (`result.get(key, default)` supplies defaults). -/
structure LLMResp where
  contextual_summary : Option String
  key_concepts : Option (List String)
  keywords : Option (List String)
  topic : Option String
  questions : Option (List String)
  deriving DecidableEq, Repr

/-- The `EnrichedChunk` dataclass. -/
structure EnrichedChunk where
  original_chunk : Chunk
  contextual_summary : String
  key_concepts : List String
  keywords : List String
  topic : String
  questions : List String
  enhanced_text : List Char
  deriving DecidableEq, Repr

/-- `_create_enhanced_text(chunk, context)`: the fixed template combining
the LLM annotations with the original chunk text. -/
def mkEnhancedText (chunk : Chunk) (r : LLMResp) : List Char :=
  ("CONTEXTO: " ++ r.contextual_summary.getD "" ++
    "\n\nTÓPICO: " ++ r.topic.getD "" ++
    "\n\nCONCEITOS-CHAVE: " ++
      String.intercalate ", " (r.key_concepts.getD []) ++
    "\n\nCONTEÚDO:\n").toList ++ chunk.text ++
  ("\n\nPERGUNTAS RELACIONADAS:\n" ++
      String.intercalate "\n" ((r.questions.getD []).map (fun q => "- " ++ q)) ++
    "\n\nPALAVRAS-CHAVE: " ++
      String.intercalate ", " (r.keywords.getD [])).toList

/-- `generate_context_for_chunk(chunk, ...)`: on oracle success, build the
enriched chunk from the parsed fields; on failure (`except Exception`),
return the fallback enriched chunk. -/
def generateContextForChunk (llm : Chunk → Option LLMResp) (chunk : Chunk) :
    EnrichedChunk :=
  match llm chunk with
  | some r =>
    { original_chunk := chunk
      contextual_summary := r.contextual_summary.getD ""
      key_concepts := r.key_concepts.getD []
      keywords := r.keywords.getD []
      topic := r.topic.getD ""
      questions := r.questions.getD []
      enhanced_text := mkEnhancedText chunk r }
  | none =>
    { original_chunk := chunk
      contextual_summary := "Erro ao gerar contexto"
      key_concepts := []
      keywords := []
      topic := "Desconhecido"
      questions := []
      enhanced_text := chunk.text }

/-- The append loop of `generate_contexts_batch`. -/
def generateContextsBatchAux (llm : Chunk → Option LLMResp) :
    List Chunk → List EnrichedChunk → List EnrichedChunk
  | [], acc => acc
  | c :: cs, acc =>
    generateContextsBatchAux llm cs (acc ++ [generateContextForChunk llm c])

/-- `generate_contexts_batch(chunks, ...)`. -/
def generateContextsBatch (llm : Chunk → Option LLMResp)
    (chunks : List Chunk) : List EnrichedChunk :=
  generateContextsBatchAux llm chunks []

/-! ## Embedding generator (`embeddings/embedding_generator.py`)

Vectors are `List ℚ` (no float arithmetic occurs in any control flow).
The OpenAI embeddings endpoint is modelled by two oracles keyed by call
instance: `batchResp i` is the outcome of the group call for batch `i`
(`none` = the call raised), and `itemEmbed k` is the outcome of the
per-item fallback call for the `k`-th text overall (`none` = it raised
after its retries). -/

/-- An embedding vector. -/
abbrev Vec := List ℚ

/-- `_get_embedding_dimension`: `dimensions.get(self.model, 1536)`. -/
def embeddingDim (model : String) : Nat :=
  (([("text-embedding-3-small", 1536),
     ("text-embedding-3-large", 3072),
     ("text-embedding-ada-002", 1536)] : List (String × Nat)).lookup
    model).getD 1536

/-- `text.replace("\n", " ").strip()` as performed by `generate_embedding`
before calling the API. -/
def cleanEmbedText (s : List Char) : List Char :=
  pyStrip (s.map (fun c => if c = '\n' then ' ' else c))

/-- `generate_embedding(text)`: clean the text, call the service (with
retry), propagate failure. -/
def generateEmbedding (embed : List Char → Option Vec) (text : List Char) :
    Option Vec :=
  embed (cleanEmbedText text)

/-- Python `l[a:b]` on lists (`0 ≤ a ≤ b`). -/
def listSlice {α : Type} (l : List α) (a b : Nat) : List α :=
  (l.take b).drop a

/-- One iteration of the batch loop of `generate_embeddings_batch`: the
embeddings contributed by batch `i` — the group response if the group call
succeeds, otherwise one per-item fallback per text with the zero vector of
the configured dimension substituted when it also fails. -/
def processBatch (dim bs : Nat) (batchResp : Nat → Option (List Vec))
    (itemEmbed : Nat → Option Vec) (texts : List (List Char)) (i : Nat) :
    List Vec :=
  let batch := listSlice texts (i * bs) (min ((i + 1) * bs) texts.length)
  match batchResp i with
  | some embs => embs
  | none =>
    batch.enum.map (fun p =>
      match itemEmbed (i * bs + p.1) with
      | some v => v
      | none => List.replicate dim 0)

/-- `generate_embeddings_batch(texts, batch_size)`.  `none` models the
`ZeroDivisionError` raised by
`num_batches = (len(texts) + batch_size - 1) // batch_size`
when `batch_size = 0`. -/
def generateEmbeddingsBatch (dim bs : Nat)
    (batchResp : Nat → Option (List Vec)) (itemEmbed : Nat → Option Vec)
    (texts : List (List Char)) : Option (List Vec) :=
  if bs = 0 then none
  else
    some (((List.range ((texts.length + bs - 1) / bs)).map
      (processBatch dim bs batchResp itemEmbed texts)).flatten)

/-- A Pinecone vector record `{"id": ..., "values": ..., "metadata": ...}`. -/
structure VectorRecord where
  id : String
  values : Vec
  metadata : List (String × PyVal)
  deriving DecidableEq, Repr

/-- `f"{doc_id}_{chunk_index}"`. -/
def vectorRecordId (docId : String) (idx : Nat) : String :=
  docId ++ "_" ++ toString idx

/-- The metadata dict literal shared verbatim by
`create_vector_for_enriched_chunk` and `create_vectors_batch`: fixed
scalar fields followed by the scalar-typed pairs of the original chunk's
metadata. -/
def vecMetadata (e : EnrichedChunk) : List (String × PyVal) :=
  [("doc_id", .vstr e.original_chunk.doc_id),
   ("chunk_index", .vint e.original_chunk.chunk_index),
   ("start_char", .vint e.original_chunk.start_char),
   ("end_char", .vint e.original_chunk.end_char),
   ("token_count", .vint e.original_chunk.token_count),
   ("text", .vstr (String.mk (e.original_chunk.text.take 1000))),
   ("contextual_summary", .vstr e.contextual_summary),
   ("topic", .vstr e.topic),
   ("key_concepts", .vstr (String.intercalate ", " (e.key_concepts.take 5))),
   ("keywords", .vstr (String.intercalate ", " (e.keywords.take 10))),
   ("questions", .vstr (String.intercalate " | " (e.questions.take 3)))]
  ++ e.original_chunk.metadata.filter (fun p => p.2.isScalar)

/-- `create_vector_for_enriched_chunk(enriched_chunk, use_enhanced_text)`:
choose the text, call `generate_embedding` (whose failure propagates), and
return the record.  No validation of the vector is performed. -/
def createVectorForEnrichedChunk (embed : List Char → Option Vec)
    (useEnhanced : Bool) (e : EnrichedChunk) : Option VectorRecord :=
  let textForEmbedding :=
    if useEnhanced then e.enhanced_text else e.original_chunk.text
  match generateEmbedding embed textForEmbedding with
  | none => none
  | some emb =>
    some { id := vectorRecordId e.original_chunk.doc_id
                   e.original_chunk.chunk_index
           values := emb
           metadata := vecMetadata e }

/-- `create_vectors_batch(enriched_chunks, use_enhanced_text)`: batch
embeddings (with the default `batch_size=100`), then `zip` chunks with
embeddings into records. -/
def createVectorsBatch (dim : Nat) (batchResp : Nat → Option (List Vec))
    (itemEmbed : Nat → Option Vec) (useEnhanced : Bool)
    (chunks : List EnrichedChunk) : Option (List VectorRecord) :=
  let texts := chunks.map (fun e =>
    if useEnhanced then e.enhanced_text else e.original_chunk.text)
  match generateEmbeddingsBatch dim 100 batchResp itemEmbed texts with
  | none => none
  | some embs =>
    some (List.zipWith (fun e emb =>
      { id := vectorRecordId e.original_chunk.doc_id
                e.original_chunk.chunk_index
        values := emb
        metadata := vecMetadata e }) chunks embs)

/-! ## Batch orchestration (`main_indexer.index_all_documents`)

`index_document` performs only external work (fetch, chunk, enrich, embed,
upsert, status update) inside a `try` that re-raises on any failure; for
the batch loop it is an oracle `outcome : Nat → Except String DocStats`
giving, for the `i`-th document, either the statistics dict it returns or
the message of the exception it (re-)raises. -/

/-- The fields of the per-document statistics dict used by the batch
loop (`result["chunks"]`, `result["vectors_upserted"]`). -/
structure DocStats where
  chunks : Nat
  vectors_upserted : Nat
  deriving DecidableEq, Repr

/-- The aggregate statistics dict of `index_all_documents`; an error entry
is `{"doc_id": doc.get("id"), "error": str(e)}`. -/
structure BatchStats where
  total_documents : Nat
  successful : Nat
  failed : Nat
  total_chunks : Nat
  total_vectors : Nat
  errors : List (Option PyVal × String)
  deriving DecidableEq, Repr

/-- Python `doc.get(k)` on a dict. -/
def pyGet (m : List (String × PyVal)) (k : String) : Option PyVal :=
  (m.find? (fun p => p.1 = k)).map (fun p => p.2)

/-- The `for doc in documents: try ... except` loop of
`index_all_documents`. -/
def indexAllLoop (outcome : Nat → Except String DocStats) :
    List (List (String × PyVal)) → Nat → BatchStats → BatchStats
  | [], _, stats => stats
  | doc :: docs, i, stats =>
    match outcome i with
    | .ok r =>
      indexAllLoop outcome docs (i + 1)
        { stats with
          successful := stats.successful + 1
          total_chunks := stats.total_chunks + r.chunks
          total_vectors := stats.total_vectors + r.vectors_upserted }
    | .error msg =>
      indexAllLoop outcome docs (i + 1)
        { stats with
          failed := stats.failed + 1
          errors := stats.errors ++ [(pyGet doc "id", msg)] }

/-- `index_all_documents(...)` after the documents have been fetched. -/
def indexAllDocuments (outcome : Nat → Except String DocStats)
    (documents : List (List (String × PyVal))) : BatchStats :=
  indexAllLoop outcome documents 0
    { total_documents := documents.length
      successful := 0
      failed := 0
      total_chunks := 0
      total_vectors := 0
      errors := [] }

/-! ## Concrete inputs used by witnesses and counterexamples -/

/-- A concrete chunk with both scalar and non-scalar inherited metadata. -/
def demoChunk : Chunk :=
  { text := "Paragraph one.".toList
    chunk_index := 0
    doc_id := "doc1"
    start_char := 0
    end_char := 14
    token_count := 3
    metadata := [("source", .vstr "oracle"), ("page", .vint 2),
                 ("tags", .vlist ["a", "b"]), ("note", .vnone)] }

/-- A concrete enriched chunk wrapping `demoChunk`. -/
def demoEnriched : EnrichedChunk :=
  { original_chunk := demoChunk
    contextual_summary := "summary"
    key_concepts := ["concept"]
    keywords := ["kw"]
    topic := "topic"
    questions := ["q?"]
    enhanced_text := "enhanced text".toList }

/-- Five documents with ids 1..5. -/
def demoDocs : List (List (String × PyVal)) :=
  [[("id", .vint 1)], [("id", .vint 2)], [("id", .vint 3)],
   [("id", .vint 4)], [("id", .vint 5)]]

/-- An outcome oracle for `demoDocs` where exactly the third document's
processing raises (its fetch failing inside `index_document`). -/
def demoOutcome : Nat → Except String DocStats :=
  fun i => if i = 2 then .error "fetch failed"
           else .ok { chunks := 3, vectors_upserted := 3 }

/-- A token counter that charges only for the letter `a`; it satisfies the
separator-join sub-additivity hypotheses of the amended C2 (none of the
four separators contains an `a`). -/
def countA (s : List Char) : Nat :=
  (s.filter (fun c => c = 'a')).length

/-- `True` on `Except.ok` (the loop's `try` body succeeded). -/
def exceptOk (x : Except String DocStats) : Bool :=
  match x with
  | .ok _ => true
  | .error _ => false

/-- The message of an `Except.error`, `""` on `ok`. -/
def errMsgOf (x : Except String DocStats) : String :=
  match x with
  | .ok _ => ""
  | .error m => m

/-- The per-chunk validity predicate of C9: positive extent, nonempty text,
not whitespace-only. -/
def GoodChunk (c : Chunk) : Prop :=
  c.start_char < c.end_char ∧ c.text ≠ [] ∧ ∃ ch ∈ c.text, pyWs ch = false

/-- The element-wise invariant on an accumulator of sentence pieces. -/
def CurOk (cur : List (List Char)) : Prop :=
  ∀ x ∈ cur, x ≠ [] ∧ ∃ ch ∈ x, pyWs ch = false

/-- A batch-call oracle for the C3 witness: the first group call
succeeds with one embedding per input, the second raises. -/
def demoBatchResp : Nat → Option (List Vec) :=
  fun i => if i = 0 then some [[1], [2]] else none

/-- A per-item oracle for the C3 witness that always raises. -/
def demoItemEmbed : Nat → Option Vec :=
  fun _ => none

/-- Three texts for the C3 witness. -/
def demoTexts : List (List Char) :=
  ["alpha".toList, "beta".toList, "gamma".toList]

/-! # Theorems -/

/-! ## Shared helper lemmas -/

theorem generateContextsBatchAux_eq (llm : Chunk → Option LLMResp) :
    ∀ (cs : List Chunk) (acc : List EnrichedChunk),
      generateContextsBatchAux llm cs acc =
        acc ++ cs.map (generateContextForChunk llm) := by
  intro cs
  induction cs with
  | nil => intro acc; simp [generateContextsBatchAux]
  | cons c cs ih => intro acc; simp [generateContextsBatchAux, ih]

theorem generateContextsBatch_eq_map (llm : Chunk → Option LLMResp)
    (chunks : List Chunk) :
    generateContextsBatch llm chunks =
      chunks.map (generateContextForChunk llm) := by
  simp [generateContextsBatch, generateContextsBatchAux_eq]

/-! ## C5 -/

/-- C5: when the LLM call for a chunk fails after all retries (or its
response cannot be parsed), `generate_context_for_chunk` still returns an
`EnrichedChunk` whose `key_concepts`, `keywords` and `questions` are empty,
whose `topic` is the fixed unavailable marker `"Desconhecido"` and whose
`enhanced_text` is the original chunk text unmodified; the batch form
returns one enriched chunk per input chunk, and the result at position `i`
depends only on the oracle's behaviour at chunk `i`, so one chunk's
failure does not change the count or the content of the other results. -/
theorem C5_enrichment_failure_degrades :
    (∀ (llm : Chunk → Option LLMResp) (chunk : Chunk),
        llm chunk = none →
        (generateContextForChunk llm chunk).key_concepts = [] ∧
        (generateContextForChunk llm chunk).keywords = [] ∧
        (generateContextForChunk llm chunk).questions = [] ∧
        (generateContextForChunk llm chunk).topic = "Desconhecido" ∧
        (generateContextForChunk llm chunk).enhanced_text = chunk.text) ∧
    (∀ (llm : Chunk → Option LLMResp) (chunks : List Chunk),
        (generateContextsBatch llm chunks).length = chunks.length) ∧
    (∀ (llm₁ llm₂ : Chunk → Option LLMResp) (chunks : List Chunk) (i : Nat)
        (h : i < chunks.length)
        (h₁ : i < (generateContextsBatch llm₁ chunks).length)
        (h₂ : i < (generateContextsBatch llm₂ chunks).length),
        llm₁ (chunks.get ⟨i, h⟩) = llm₂ (chunks.get ⟨i, h⟩) →
        (generateContextsBatch llm₁ chunks).get ⟨i, h₁⟩ =
          (generateContextsBatch llm₂ chunks).get ⟨i, h₂⟩) := by
  refine ⟨?_, ?_, ?_⟩
  · intro llm chunk h
    simp [generateContextForChunk, h]
  · intro llm chunks
    simp [generateContextsBatch_eq_map]
  · intro llm₁ llm₂ chunks i h h₁ h₂ horacle
    simp only [List.get_eq_getElem, generateContextsBatch_eq_map,
      List.getElem_map] at h₁ h₂ ⊢
    simp only [List.get_eq_getElem] at horacle
    simp [generateContextForChunk, horacle]

/-- Witness for C5 at a concrete failing oracle and a concrete chunk. -/
theorem C5_witness :
    (generateContextForChunk (fun _ => none) demoChunk).topic =
        "Desconhecido" ∧
    (generateContextForChunk (fun _ => none) demoChunk).enhanced_text =
        demoChunk.text ∧
    (generateContextsBatch (fun _ => none) [demoChunk]).length = 1 ∧
    (generateContextsBatch (fun _ => none) [demoChunk]).get ⟨0, by decide⟩ =
      (generateContextsBatch
        (fun c => if c.chunk_index = 5 then
            some ⟨some "s", none, none, some "t", none⟩
          else none) [demoChunk]).get ⟨0, by decide⟩ := by
  refine ⟨(C5_enrichment_failure_degrades.1 (fun _ => none) demoChunk rfl).2.2.2.1,
    (C5_enrichment_failure_degrades.1 (fun _ => none) demoChunk rfl).2.2.2.2,
    C5_enrichment_failure_degrades.2.1 (fun _ => none) [demoChunk],
    C5_enrichment_failure_degrades.2.2 (fun _ => none) _ [demoChunk] 0
      (by decide) (by decide) (by decide) (by decide)⟩

/-! ## C6 -/

/-- C6: the id of every vector record is the pure function
`doc_id ++ "_" ++ str(chunk_index)` of the wrapped chunk — so two enriched
chunks with equal `doc_id` and `chunk_index` always receive the same id
(whatever the embedding oracle returns), and in the batch form the `i`-th
record's id is that same function of the `i`-th input chunk, hence two runs
over the same chunks produce identical ids. -/
theorem C6_deterministic_ids :
    (∀ (embed : List Char → Option Vec) (useE : Bool) (e : EnrichedChunk)
        (r : VectorRecord),
        createVectorForEnrichedChunk embed useE e = some r →
        r.id = vectorRecordId e.original_chunk.doc_id
          e.original_chunk.chunk_index) ∧
    (∀ (embed₁ embed₂ : List Char → Option Vec) (useE₁ useE₂ : Bool)
        (e₁ e₂ : EnrichedChunk) (r₁ r₂ : VectorRecord),
        createVectorForEnrichedChunk embed₁ useE₁ e₁ = some r₁ →
        createVectorForEnrichedChunk embed₂ useE₂ e₂ = some r₂ →
        e₁.original_chunk.doc_id = e₂.original_chunk.doc_id →
        e₁.original_chunk.chunk_index = e₂.original_chunk.chunk_index →
        r₁.id = r₂.id) ∧
    (∀ (dim : Nat) (batchResp : Nat → Option (List Vec))
        (itemEmbed : Nat → Option Vec) (useE : Bool)
        (chunks : List EnrichedChunk) (v : List VectorRecord) (i : Nat)
        (hv : createVectorsBatch dim batchResp itemEmbed useE chunks = some v)
        (h : i < v.length) (h' : i < chunks.length),
        (v.get ⟨i, h⟩).id =
          vectorRecordId (chunks.get ⟨i, h'⟩).original_chunk.doc_id
            (chunks.get ⟨i, h'⟩).original_chunk.chunk_index) := by
  have key : ∀ (embed : List Char → Option Vec) (useE : Bool)
      (e : EnrichedChunk) (r : VectorRecord),
      createVectorForEnrichedChunk embed useE e = some r →
      r.id = vectorRecordId e.original_chunk.doc_id
        e.original_chunk.chunk_index := by
    intro embed useE e r h
    unfold createVectorForEnrichedChunk at h
    rcases hg : generateEmbedding embed
        (if useE then e.enhanced_text else e.original_chunk.text) with _ | emb
    · simp [hg] at h
    · simp [hg] at h
      subst h; rfl
  refine ⟨key, ?_, ?_⟩
  · intro embed₁ embed₂ useE₁ useE₂ e₁ e₂ r₁ r₂ h₁ h₂ hdoc hidx
    rw [key embed₁ useE₁ e₁ r₁ h₁, key embed₂ useE₂ e₂ r₂ h₂, hdoc, hidx]
  · intro dim batchResp itemEmbed useE chunks v i hv h h'
    unfold createVectorsBatch at hv
    rcases hg : generateEmbeddingsBatch dim 100 batchResp itemEmbed
        (chunks.map (fun e =>
          if useE then e.enhanced_text else e.original_chunk.text)) with _ | embs
    · simp [hg] at hv
    · simp [hg] at hv
      subst hv
      simp [List.get_eq_getElem, List.getElem_zipWith]

/-- Witness for C6 at a concrete embedding oracle and enriched chunk. -/
theorem C6_witness :
    (⟨"doc1_0", [1], vecMetadata demoEnriched⟩ : VectorRecord).id =
      vectorRecordId demoEnriched.original_chunk.doc_id
        demoEnriched.original_chunk.chunk_index :=
  C6_deterministic_ids.1 (fun _ => some [1]) true demoEnriched _ (by rfl)

/-! ## C7 -/

theorem indexAllLoop_spec (outcome : Nat → Except String DocStats) :
    ∀ (docs : List (List (String × PyVal))) (i : Nat) (st : BatchStats),
      (indexAllLoop outcome docs i st).total_documents = st.total_documents ∧
      (indexAllLoop outcome docs i st).successful =
        st.successful +
          ((List.enumFrom i docs).filter
            (fun p => exceptOk (outcome p.1))).length ∧
      (indexAllLoop outcome docs i st).failed =
        st.failed +
          ((List.enumFrom i docs).filter
            (fun p => !exceptOk (outcome p.1))).length ∧
      (indexAllLoop outcome docs i st).errors =
        st.errors ++
          ((List.enumFrom i docs).filter
            (fun p => !exceptOk (outcome p.1))).map
            (fun p => (pyGet p.2 "id", errMsgOf (outcome p.1))) := by
  intro docs
  induction docs with
  | nil => intro i st; simp [indexAllLoop]
  | cons doc docs ih =>
    intro i st
    rcases hout : outcome i with m | r
    · rcases ih (i + 1)
          { st with failed := st.failed + 1,
                    errors := st.errors ++ [(pyGet doc "id", m)] } with
        ⟨h1, h2, h3, h4⟩
      have hfcT : (List.enumFrom i (doc :: docs)).filter
          (fun p => !exceptOk (outcome p.1)) =
          (i, doc) :: (List.enumFrom (i + 1) docs).filter
            (fun p => !exceptOk (outcome p.1)) := by
        simp [List.enumFrom_cons, List.filter_cons, hout, exceptOk]
      have hfcF : (List.enumFrom i (doc :: docs)).filter
          (fun p => exceptOk (outcome p.1)) =
          (List.enumFrom (i + 1) docs).filter
            (fun p => exceptOk (outcome p.1)) := by
        simp [List.enumFrom_cons, List.filter_cons, hout, exceptOk]
      refine ⟨?_, ?_, ?_, ?_⟩ <;> simp only [indexAllLoop, hout]
      · rw [h1]
      · rw [h2, hfcF]
      · rw [h3, hfcT]; simp; omega
      · rw [h4, hfcT]; simp [errMsgOf, hout]
    · rcases ih (i + 1)
          { st with successful := st.successful + 1,
                    total_chunks := st.total_chunks + r.chunks,
                    total_vectors := st.total_vectors + r.vectors_upserted } with
        ⟨h1, h2, h3, h4⟩
      have hfcT : (List.enumFrom i (doc :: docs)).filter
          (fun p => !exceptOk (outcome p.1)) =
          (List.enumFrom (i + 1) docs).filter
            (fun p => !exceptOk (outcome p.1)) := by
        simp [List.enumFrom_cons, List.filter_cons, hout, exceptOk]
      have hfcF : (List.enumFrom i (doc :: docs)).filter
          (fun p => exceptOk (outcome p.1)) =
          (i, doc) :: (List.enumFrom (i + 1) docs).filter
            (fun p => exceptOk (outcome p.1)) := by
        simp [List.enumFrom_cons, List.filter_cons, hout, exceptOk]
      refine ⟨?_, ?_, ?_, ?_⟩ <;> simp only [indexAllLoop, hout]
      · rw [h1]
      · rw [h2, hfcF]; simp; omega
      · rw [h3, hfcT]
      · rw [h4, hfcT]

/-- C7: `index_all_documents` processes each document independently: the
outcome statistics count every document exactly once
(`successful + failed = total`), `successful`/`failed` are exactly the
numbers of documents whose processing succeeded/raised, and the error list
records, in order, the id of every failing document with its exception
message; in particular over the five demo documents where only the third
one's fetch raises, the statistics show `successful = 4`, `failed = 1` and
the third document's id in the error list. -/
theorem C7_batch_failure_isolation :
    (∀ (outcome : Nat → Except String DocStats)
        (docs : List (List (String × PyVal))),
        (indexAllDocuments outcome docs).total_documents = docs.length ∧
        (indexAllDocuments outcome docs).successful +
            (indexAllDocuments outcome docs).failed = docs.length ∧
        (indexAllDocuments outcome docs).successful =
          ((docs.enum).filter (fun p => exceptOk (outcome p.1))).length ∧
        (indexAllDocuments outcome docs).failed =
          ((docs.enum).filter (fun p => !exceptOk (outcome p.1))).length ∧
        (indexAllDocuments outcome docs).errors =
          ((docs.enum).filter (fun p => !exceptOk (outcome p.1))).map
            (fun p => (pyGet p.2 "id", errMsgOf (outcome p.1)))) ∧
    ((indexAllDocuments demoOutcome demoDocs).successful = 4 ∧
     (indexAllDocuments demoOutcome demoDocs).failed = 1 ∧
     (indexAllDocuments demoOutcome demoDocs).errors =
       [(some (.vint 3), "fetch failed")]) := by
  constructor
  · intro outcome docs
    rcases indexAllLoop_spec outcome docs 0
        { total_documents := docs.length, successful := 0, failed := 0,
          total_chunks := 0, total_vectors := 0, errors := [] } with
      ⟨h1, h2, h3, h4⟩
    have henum : List.enumFrom 0 docs = docs.enum := rfl
    refine ⟨by simpa [indexAllDocuments] using h1, ?_, ?_, ?_, ?_⟩
    · have hlen := List.length_eq_length_filter_add
        (l := docs.enum) (fun p => exceptOk (outcome p.1))
      simp only [indexAllDocuments, h2, h3, henum]
      simp only [List.enum_length] at hlen
      omega
    · simpa [indexAllDocuments, henum] using h2
    · simpa [indexAllDocuments, henum] using h3
    · simpa [indexAllDocuments, henum] using h4
  · refine ⟨by decide, by decide, by decide⟩

/-! ## C10 -/

/-- C10: when a vector record is built, exactly the scalar-typed pairs
(`str`/`int`/`float`/`bool` values) of the original chunk's inherited
metadata are copied into the record's metadata; a pair with any other value
type (list, dict, `None`) is silently omitted, and no error is raised. -/
theorem C10_scalar_metadata_filter :
    ∀ (embed : List Char → Option Vec) (useE : Bool) (e : EnrichedChunk)
      (r : VectorRecord) (k : String) (v : PyVal),
      createVectorForEnrichedChunk embed useE e = some r →
      (k, v) ∈ e.original_chunk.metadata →
      ((v.isScalar = true → (k, v) ∈ r.metadata) ∧
       (v.isScalar = false → (k, v) ∉ r.metadata)) := by
  intro embed useE e r k v hc hmem
  have hmd : r.metadata = vecMetadata e := by
    unfold createVectorForEnrichedChunk at hc
    rcases hg : generateEmbedding embed
        (if useE then e.enhanced_text else e.original_chunk.text) with _ | emb
    · simp [hg] at hc
    · simp [hg] at hc; subst hc; rfl
  rw [hmd]
  constructor
  · intro hs
    unfold vecMetadata
    refine List.mem_append.2 (Or.inr ?_)
    exact List.mem_filter.2 ⟨hmem, hs⟩
  · intro hs hin
    unfold vecMetadata at hin
    rcases List.mem_append.1 hin with hfix | hfil
    · simp only [List.mem_cons] at hfix
      rcases hfix with h | h | h | h | h | h | h | h | h | h | h | h
      all_goals first
        | (cases h; simp [PyVal.isScalar] at hs)
        | simp at h
    · exact absurd (List.mem_filter.1 hfil).2 (by simp [hs])

/-- Witness for C10: the scalar pair `("page", 2)` of `demoChunk`'s
metadata lands in the record, the list-valued pair `("tags", ...)` does
not. -/
theorem C10_witness :
    ("page", PyVal.vint 2) ∈
        (⟨"doc1_0", [1], vecMetadata demoEnriched⟩ : VectorRecord).metadata ∧
    ("tags", PyVal.vlist ["a", "b"]) ∉
        (⟨"doc1_0", [1], vecMetadata demoEnriched⟩ : VectorRecord).metadata := by
  have h1 := C10_scalar_metadata_filter (fun _ => some [1]) true demoEnriched
    ⟨"doc1_0", [1], vecMetadata demoEnriched⟩ "page" (.vint 2)
    (by rfl) (by decide)
  have h2 := C10_scalar_metadata_filter (fun _ => some [1]) true demoEnriched
    ⟨"doc1_0", [1], vecMetadata demoEnriched⟩ "tags" (.vlist ["a", "b"])
    (by rfl) (by decide)
  exact ⟨h1.1 (by decide), h2.2 (by decide)⟩

/-! ## C4 -/

/-- C4 counterexample: with configured model `text-embedding-3-small`
(dimension 1536), an embedding call that returns a 2-element vector still
produces a record (`some`), with no exception and no length check — the
claim that a mismatched length makes construction raise is false. -/
theorem C4_counterexample :
    (createVectorForEnrichedChunk (fun _ => some [0, 0]) true
        demoEnriched).map (fun r => r.values.length) = some 2 ∧
    embeddingDim "text-embedding-3-small" = 1536 := by
  constructor
  · rfl
  · rfl

/-- C4 amended: no dimension validation happens at vector-record
construction: whenever the embedding call returns a vector `v` — of any
length whatsoever — `create_vector_for_enriched_chunk` succeeds and stores
`v` unchanged (construction fails only by propagating a failure of the
embedding call itself). -/
theorem C4_amended_no_dimension_check :
    ∀ (embed : List Char → Option Vec) (useE : Bool) (e : EnrichedChunk)
      (v : Vec),
      generateEmbedding embed
          (if useE then e.enhanced_text else e.original_chunk.text) = some v →
      createVectorForEnrichedChunk embed useE e =
        some ⟨vectorRecordId e.original_chunk.doc_id
                e.original_chunk.chunk_index, v, vecMetadata e⟩ := by
  intro embed useE e v h
  simp only [createVectorForEnrichedChunk]
  rw [h]

/-- Witness for the amended C4 at a concrete oracle returning a 2-vector. -/
theorem C4_amended_witness :
    createVectorForEnrichedChunk (fun _ => some [1, 2]) false demoEnriched =
      some ⟨vectorRecordId demoEnriched.original_chunk.doc_id
              demoEnriched.original_chunk.chunk_index, [1, 2],
            vecMetadata demoEnriched⟩ :=
  C4_amended_no_dimension_check (fun _ => some [1, 2]) false demoEnriched
    [1, 2] (by rfl)

/-! ## C8 -/

theorem fixedEnd_gt (cs : Nat) (text : List Char) (start : Nat)
    (hcs : 1 ≤ cs) : start < fixedEnd cs text start := by
  simp only [fixedEnd]
  split
  · split
    · split <;> omega
    · omega
  · omega

theorem fixedNextStart_gt (cs ov : Nat) (text : List Char) (start : Nat)
    (hcs : 1 ≤ cs) : start < fixedNextStart cs ov text start := by
  have := fixedEnd_gt cs text start hcs
  simp only [fixedNextStart]
  split <;> omega

theorem chunkFixedAux_isSome (count : List Char → Nat) (cs ov : Nat)
    (docId : String) (md : List (String × PyVal)) (text : List Char)
    (hcs : 1 ≤ cs) :
    ∀ (fuel start idx : Nat), text.length - start < fuel →
      (chunkFixedAux count cs ov docId md text fuel start idx).isSome = true := by
  intro fuel
  induction fuel with
  | zero => intro start idx h; omega
  | succ fuel ih =>
    intro start idx h
    by_cases hs : start < text.length
    · have hnext := fixedNextStart_gt cs ov text start hcs
      have hrec : text.length - fixedNextStart cs ov text start < fuel := by
        omega
      simp only [chunkFixedAux, hs, if_true]
      split
      · exact ih _ idx hrec
      · rcases hr : chunkFixedAux count cs ov docId md text fuel
            (fixedNextStart cs ov text start) (idx + 1) with _ | l
        · have := ih _ (idx + 1) hrec
          rw [hr] at this
          simp at this
        · simp [hr]
    · simp [chunkFixedAux, hs]

theorem pySlice_self_nil (text : List Char) (start : Nat) :
    pySlice text start start = [] := by
  apply List.drop_eq_nil_of_le
  simp [List.length_take]

/-- With `chunk_size = 0` and `overlap = 0` the window makes no progress:
for every fuel the loop is still running when the fuel runs out, i.e. the
Python `while` loop never terminates. -/
theorem chunkFixedAux_no_progress (count : List Char → Nat) (docId : String)
    (md : List (String × PyVal)) (text : List Char) :
    ∀ (fuel start idx : Nat), start < text.length →
      chunkFixedAux count 0 0 docId md text fuel start idx = none := by
  have hrfind : ∀ start : Nat, pyRfind ' ' text start start = none := by
    intro start
    simp [pyRfind, pySlice_self_nil, List.findIdx?]
  have hend : ∀ start : Nat, start < text.length →
      fixedEnd 0 text start = start := by
    intro start h
    simp [fixedEnd, h, hrfind]
  have hnext : ∀ start : Nat, start < text.length →
      fixedNextStart 0 0 text start = start := by
    intro start h
    simp [fixedNextStart, hend start h]
  intro fuel
  induction fuel with
  | zero => intro start idx h; simp [chunkFixedAux, h]
  | succ fuel ih =>
    intro start idx h
    have hct : pyStrip (pySlice text start (fixedEnd 0 text start)) = [] := by
      rw [hend start h, pySlice_self_nil]
      rfl
    simp only [chunkFixedAux, h, if_true, hct, if_pos rfl]
    rw [hnext start h]
    exact ih start idx h

/-- C8 counterexample: with `chunk_size = 0` (a value the configuration
admits) and `overlap = 0`, on input `"a"` the next window start equals the
current start — no progress — and the fixed-size loop never finishes
(it exhausts any fuel, here `length + 1`). -/
theorem C8_counterexample :
    fixedNextStart 0 0 ['a'] 0 = 0 ∧
    chunkFixedSize List.length 0 0 "d" [] ['a'] = none := by
  exact ⟨by decide, by decide⟩

/-- C8 amended: for every configuration with `chunk_size ≥ 1` (any
overlap), the window start strictly increases on every iteration — the next
start is `end − overlap` when that exceeds the current start and `end`
otherwise, and `end > start` always — hence the fixed-size loop terminates
(fuel `length + 1` suffices). -/
theorem C8_amended_progress :
    (∀ (cs ov : Nat) (text : List Char) (start : Nat),
        1 ≤ cs → start < text.length →
        start < fixedNextStart cs ov text start) ∧
    (∀ (count : List Char → Nat) (cs ov : Nat) (docId : String)
        (md : List (String × PyVal)) (text : List Char),
        1 ≤ cs →
        (chunkFixedSize count cs ov docId md text).isSome = true) := by
  constructor
  · intro cs ov text start hcs _
    exact fixedNextStart_gt cs ov text start hcs
  · intro count cs ov docId md text hcs
    exact chunkFixedAux_isSome count cs ov docId md text hcs
      (text.length + 1) 0 0 (by omega)

/-- Witness for the amended C8: `chunk_size = 1`, `overlap = 2`
(overlap exceeding the remaining span), input `"ab"`. -/
theorem C8_witness :
    0 < fixedNextStart 1 2 ['a', 'b'] 0 ∧
    (chunkFixedSize List.length 1 2 "d" [] ['a', 'b']).isSome = true :=
  ⟨C8_amended_progress.1 1 2 ['a', 'b'] 0 (by decide) (by decide),
   C8_amended_progress.2 List.length 1 2 "d" [] ['a', 'b'] (by decide)⟩

/-! ## C1 -/

theorem chunkFixedAux_indices (count : List Char → Nat) (cs ov : Nat)
    (docId : String) (md : List (String × PyVal)) (text : List Char) :
    ∀ (fuel start idx : Nat) (l : List Chunk),
      chunkFixedAux count cs ov docId md text fuel start idx = some l →
      l.map Chunk.chunk_index = List.range' idx l.length := by
  intro fuel
  induction fuel with
  | zero =>
    intro start idx l h
    by_cases hs : start < text.length <;> simp [chunkFixedAux, hs] at h
    subst h; rfl
  | succ fuel ih =>
    intro start idx l h
    by_cases hs : start < text.length
    · simp only [chunkFixedAux, hs, if_true] at h
      split at h
      · exact ih _ idx l h
      · rcases hr : chunkFixedAux count cs ov docId md text fuel
            (fixedNextStart cs ov text start) (idx + 1) with _ | rest
        · rw [hr] at h; simp at h
        · rw [hr] at h
          cases h
          rw [List.map_cons, ih _ (idx + 1) rest hr]
          rfl
    · simp [chunkFixedAux, hs] at h
      subst h; rfl

theorem chunkRecEmit_cons_nil (count : List Char → Nat) (docId : String)
    (md : List (String × PyVal)) (text p : List Char) (ps : List (List Char))
    (idx : Nat) (pos : Int) (hp : pyStrip p = []) :
    chunkRecEmit count docId md text (p :: ps) idx pos =
      chunkRecEmit count docId md text ps (idx + 1) pos := by
  conv_lhs => unfold chunkRecEmit
  simp [hp]

theorem chunkRecEmit_cons_emit (count : List Char → Nat) (docId : String)
    (md : List (String × PyVal)) (text p : List Char) (ps : List (List Char))
    (idx : Nat) (pos : Int) (hp : pyStrip p ≠ []) :
    chunkRecEmit count docId md text (p :: ps) idx pos =
      { text := pyStrip p
        chunk_index := idx
        doc_id := docId
        start_char := pyFindFrom text (pyStrip p) pos
        end_char := pyFindFrom text (pyStrip p) pos + ((pyStrip p).length : Int)
        token_count := count (pyStrip p)
        metadata := pyDictSet md "strategy" (.vstr "recursive") } ::
        chunkRecEmit count docId md text ps (idx + 1)
          (pyFindFrom text (pyStrip p) pos + ((pyStrip p).length : Int)) := by
  conv_lhs => unfold chunkRecEmit
  simp [hp]

theorem chunkRecEmit_mono (count : List Char → Nat) (docId : String)
    (md : List (String × PyVal)) (text : List Char) :
    ∀ (ps : List (List Char)) (idx : Nat) (pos : Int),
      (∀ j ∈ (chunkRecEmit count docId md text ps idx pos).map
          Chunk.chunk_index, idx ≤ j) ∧
      ((chunkRecEmit count docId md text ps idx pos).map
          Chunk.chunk_index).Pairwise (· < ·) := by
  intro ps
  induction ps with
  | nil => intro idx pos; simp [chunkRecEmit]
  | cons p ps ih =>
    intro idx pos
    by_cases hp : pyStrip p = []
    · rw [chunkRecEmit_cons_nil count docId md text p ps idx pos hp]
      rcases ih (idx + 1) pos with ⟨h1, h2⟩
      exact ⟨fun j hj => by have := h1 j hj; omega, h2⟩
    · rw [chunkRecEmit_cons_emit count docId md text p ps idx pos hp]
      rcases ih (idx + 1)
          (pyFindFrom text (pyStrip p) pos + ((pyStrip p).length : Int)) with
        ⟨h1, h2⟩
      simp only [List.map_cons, List.mem_cons, List.pairwise_cons]
      refine ⟨?_, ?_, h2⟩
      · intro j hj
        rcases hj with rfl | hj
        · omega
        · have := h1 j hj; omega
      · intro j hj
        have := h1 j hj; omega


theorem sentEmit_fst_chunk_index (docId : String) (md : List (String × PyVal))
    (text : List Char) (idx : Nat) (pos : Int) (cur : List (List Char))
    (tok : Nat) : (sentEmit docId md text idx pos cur tok).1.chunk_index = idx :=
  rfl

theorem sentWords_cons_over_nilTemp (count : List Char → Nat) (cs : Nat)
    (docId : String) (md : List (String × PyVal)) (text w : List Char)
    (ws : List (List Char)) (chunks : List Chunk) (idx : Nat) (pos : Int)
    (ttok : Nat) (h : cs < ttok + count w) :
    sentWords count cs docId md text (w :: ws) chunks idx pos [] ttok =
      sentWords count cs docId md text ws chunks idx pos [w] (count w) := by
  conv_lhs => unfold sentWords
  simp [h]

theorem sentWords_cons_over_emit (count : List Char → Nat) (cs : Nat)
    (docId : String) (md : List (String × PyVal)) (text w : List Char)
    (ws : List (List Char)) (chunks : List Chunk) (idx : Nat) (pos : Int)
    (temp : List (List Char)) (ttok : Nat) (h : cs < ttok + count w)
    (ht : temp ≠ []) :
    sentWords count cs docId md text (w :: ws) chunks idx pos temp ttok =
      sentWords count cs docId md text ws
        (chunks ++ [(sentEmit docId md text idx pos temp ttok).1]) (idx + 1)
        (sentEmit docId md text idx pos temp ttok).2 [w] (count w) := by
  conv_lhs => unfold sentWords
  simp [h, ht]

theorem sentWords_cons_acc (count : List Char → Nat) (cs : Nat)
    (docId : String) (md : List (String × PyVal)) (text w : List Char)
    (ws : List (List Char)) (chunks : List Chunk) (idx : Nat) (pos : Int)
    (temp : List (List Char)) (ttok : Nat) (h : ¬ cs < ttok + count w) :
    sentWords count cs docId md text (w :: ws) chunks idx pos temp ttok =
      sentWords count cs docId md text ws chunks idx pos (temp ++ [w])
        (ttok + count w) := by
  conv_lhs => unfold sentWords
  simp [h]

theorem sentLoop_nil_nilcur (count : List Char → Nat) (cs : Nat)
    (docId : String) (md : List (String × PyVal)) (text : List Char)
    (chunks : List Chunk) (ctok idx : Nat) (pos : Int) :
    sentLoop count cs docId md text [] chunks [] ctok idx pos = chunks := by
  conv_lhs => unfold sentLoop
  simp

theorem sentLoop_nil_emit (count : List Char → Nat) (cs : Nat)
    (docId : String) (md : List (String × PyVal)) (text : List Char)
    (chunks : List Chunk) (cur : List (List Char)) (ctok idx : Nat)
    (pos : Int) (hc : cur ≠ []) :
    sentLoop count cs docId md text [] chunks cur ctok idx pos =
      chunks ++ [(sentEmit docId md text idx pos cur ctok).1] := by
  conv_lhs => unfold sentLoop
  simp [hc]

theorem sentLoop_cons_ws (count : List Char → Nat) (cs : Nat)
    (docId : String) (md : List (String × PyVal)) (text snt : List Char)
    (snts : List (List Char)) (chunks : List Chunk) (cur : List (List Char))
    (ctok idx : Nat) (pos : Int) (hP : pyStrip snt = []) :
    sentLoop count cs docId md text (snt :: snts) chunks cur ctok idx pos =
      sentLoop count cs docId md text snts chunks cur ctok idx pos := by
  conv_lhs => unfold sentLoop
  simp [hP]

theorem sentLoop_cons_big_nilcur (count : List Char → Nat) (cs : Nat)
    (docId : String) (md : List (String × PyVal)) (text snt : List Char)
    (snts : List (List Char)) (chunks : List Chunk) (ctok idx : Nat)
    (pos : Int) (hP : pyStrip snt ≠ []) (hB : cs < count (pyStrip snt)) :
    sentLoop count cs docId md text (snt :: snts) chunks [] ctok idx pos =
      sentLoop count cs docId md text snts
        (sentWords count cs docId md text (splitWs (pyStrip snt)) chunks idx
          pos [] 0).1
        (if (sentWords count cs docId md text (splitWs (pyStrip snt)) chunks
            idx pos [] 0).2.2.2.1 = [] then []
         else (sentWords count cs docId md text (splitWs (pyStrip snt)) chunks
            idx pos [] 0).2.2.2.1)
        (if (sentWords count cs docId md text (splitWs (pyStrip snt)) chunks
            idx pos [] 0).2.2.2.1 = [] then ctok
         else (sentWords count cs docId md text (splitWs (pyStrip snt)) chunks
            idx pos [] 0).2.2.2.2)
        (sentWords count cs docId md text (splitWs (pyStrip snt)) chunks idx
          pos [] 0).2.1
        (sentWords count cs docId md text (splitWs (pyStrip snt)) chunks idx
          pos [] 0).2.2.1 := by
  conv_lhs => unfold sentLoop
  simp [hP, hB]

theorem sentLoop_cons_big_emit (count : List Char → Nat) (cs : Nat)
    (docId : String) (md : List (String × PyVal)) (text snt : List Char)
    (snts : List (List Char)) (chunks : List Chunk) (cur : List (List Char))
    (ctok idx : Nat) (pos : Int) (hP : pyStrip snt ≠ [])
    (hB : cs < count (pyStrip snt)) (hc : cur ≠ []) :
    sentLoop count cs docId md text (snt :: snts) chunks cur ctok idx pos =
      sentLoop count cs docId md text snts
        (sentWords count cs docId md text (splitWs (pyStrip snt))
          (chunks ++ [(sentEmit docId md text idx pos cur ctok).1]) (idx + 1)
          (sentEmit docId md text idx pos cur ctok).2 [] 0).1
        (if (sentWords count cs docId md text (splitWs (pyStrip snt))
            (chunks ++ [(sentEmit docId md text idx pos cur ctok).1]) (idx + 1)
            (sentEmit docId md text idx pos cur ctok).2 [] 0).2.2.2.1 = []
         then []
         else (sentWords count cs docId md text (splitWs (pyStrip snt))
            (chunks ++ [(sentEmit docId md text idx pos cur ctok).1]) (idx + 1)
            (sentEmit docId md text idx pos cur ctok).2 [] 0).2.2.2.1)
        (if (sentWords count cs docId md text (splitWs (pyStrip snt))
            (chunks ++ [(sentEmit docId md text idx pos cur ctok).1]) (idx + 1)
            (sentEmit docId md text idx pos cur ctok).2 [] 0).2.2.2.1 = []
         then 0
         else (sentWords count cs docId md text (splitWs (pyStrip snt))
            (chunks ++ [(sentEmit docId md text idx pos cur ctok).1]) (idx + 1)
            (sentEmit docId md text idx pos cur ctok).2 [] 0).2.2.2.2)
        (sentWords count cs docId md text (splitWs (pyStrip snt))
          (chunks ++ [(sentEmit docId md text idx pos cur ctok).1]) (idx + 1)
          (sentEmit docId md text idx pos cur ctok).2 [] 0).2.1
        (sentWords count cs docId md text (splitWs (pyStrip snt))
          (chunks ++ [(sentEmit docId md text idx pos cur ctok).1]) (idx + 1)
          (sentEmit docId md text idx pos cur ctok).2 [] 0).2.2.1 := by
  conv_lhs => unfold sentLoop
  simp [hP, hB, hc]

theorem sentLoop_cons_over_nilcur (count : List Char → Nat) (cs : Nat)
    (docId : String) (md : List (String × PyVal)) (text snt : List Char)
    (snts : List (List Char)) (chunks : List Chunk) (ctok idx : Nat)
    (pos : Int) (hP : pyStrip snt ≠ []) (hB : ¬ cs < count (pyStrip snt))
    (hO : cs < ctok + count (pyStrip snt)) :
    sentLoop count cs docId md text (snt :: snts) chunks [] ctok idx pos =
      sentLoop count cs docId md text snts chunks [pyStrip snt]
        (count (pyStrip snt)) idx pos := by
  conv_lhs => unfold sentLoop
  simp [hP, hB, hO]

theorem sentLoop_cons_over_emit (count : List Char → Nat) (cs : Nat)
    (docId : String) (md : List (String × PyVal)) (text snt : List Char)
    (snts : List (List Char)) (chunks : List Chunk) (cur : List (List Char))
    (ctok idx : Nat) (pos : Int) (hP : pyStrip snt ≠ [])
    (hB : ¬ cs < count (pyStrip snt)) (hO : cs < ctok + count (pyStrip snt))
    (hc : cur ≠ []) :
    sentLoop count cs docId md text (snt :: snts) chunks cur ctok idx pos =
      sentLoop count cs docId md text snts
        (chunks ++ [(sentEmit docId md text idx pos cur ctok).1])
        [pyStrip snt] (count (pyStrip snt)) (idx + 1)
        (sentEmit docId md text idx pos cur ctok).2 := by
  conv_lhs => unfold sentLoop
  simp [hP, hB, hO, hc]

theorem sentLoop_cons_acc (count : List Char → Nat) (cs : Nat)
    (docId : String) (md : List (String × PyVal)) (text snt : List Char)
    (snts : List (List Char)) (chunks : List Chunk) (cur : List (List Char))
    (ctok idx : Nat) (pos : Int) (hP : pyStrip snt ≠ [])
    (hB : ¬ cs < count (pyStrip snt)) (hO : ¬ cs < ctok + count (pyStrip snt)) :
    sentLoop count cs docId md text (snt :: snts) chunks cur ctok idx pos =
      sentLoop count cs docId md text snts chunks (cur ++ [pyStrip snt])
        (ctok + count (pyStrip snt)) idx pos := by
  conv_lhs => unfold sentLoop
  simp [hP, hB, hO]

theorem sentWords_spec (count : List Char → Nat) (cs : Nat) (docId : String)
    (md : List (String × PyVal)) (text : List Char) :
    ∀ (ws : List (List Char)) (chunks : List Chunk) (idx : Nat) (pos : Int)
      (temp : List (List Char)) (ttok : Nat),
      idx = chunks.length →
      chunks.map Chunk.chunk_index = List.range chunks.length →
      ((sentWords count cs docId md text ws chunks idx pos temp ttok).2.1 =
        (sentWords count cs docId md text ws chunks idx pos temp ttok).1.length ∧
       (sentWords count cs docId md text ws chunks idx pos temp ttok).1.map
          Chunk.chunk_index =
        List.range
          (sentWords count cs docId md text ws chunks idx pos temp ttok).1.length) := by
  intro ws
  induction ws with
  | nil => intro chunks idx pos temp ttok h1 h2; exact ⟨h1, h2⟩
  | cons w ws ih =>
    intro chunks idx pos temp ttok h1 h2
    by_cases hO : cs < ttok + count w
    · by_cases ht : temp = []
      · subst ht
        rw [sentWords_cons_over_nilTemp count cs docId md text w ws chunks idx
          pos ttok hO]
        exact ih chunks idx pos [w] (count w) h1 h2
      · rw [sentWords_cons_over_emit count cs docId md text w ws chunks idx
          pos temp ttok hO ht]
        apply ih
        · simp [h1]
        · subst h1
          simp [h2, List.range_succ, sentEmit_fst_chunk_index]
    · rw [sentWords_cons_acc count cs docId md text w ws chunks idx pos temp
        ttok hO]
      exact ih chunks idx pos (temp ++ [w]) (ttok + count w) h1 h2

theorem sentLoop_spec (count : List Char → Nat) (cs : Nat) (docId : String)
    (md : List (String × PyVal)) (text : List Char) :
    ∀ (snts : List (List Char)) (chunks : List Chunk)
      (cur : List (List Char)) (ctok idx : Nat) (pos : Int),
      idx = chunks.length →
      chunks.map Chunk.chunk_index = List.range chunks.length →
      (sentLoop count cs docId md text snts chunks cur ctok idx pos).map
          Chunk.chunk_index =
        List.range
          (sentLoop count cs docId md text snts chunks cur ctok idx pos).length := by
  intro snts
  induction snts with
  | nil =>
    intro chunks cur ctok idx pos h1 h2
    by_cases hc : cur = []
    · subst hc
      rw [sentLoop_nil_nilcur count cs docId md text chunks ctok idx pos]
      exact h2
    · rw [sentLoop_nil_emit count cs docId md text chunks cur ctok idx pos hc]
      subst h1
      simp [h2, List.range_succ, sentEmit_fst_chunk_index]
  | cons snt snts ih =>
    intro chunks cur ctok idx pos h1 h2
    by_cases hP : pyStrip snt = []
    · rw [sentLoop_cons_ws count cs docId md text snt snts chunks cur ctok idx
        pos hP]
      exact ih chunks cur ctok idx pos h1 h2
    · by_cases hB : cs < count (pyStrip snt)
      · by_cases hc : cur = []
        · subst hc
          rw [sentLoop_cons_big_nilcur count cs docId md text snt snts chunks
            ctok idx pos hP hB]
          rcases sentWords_spec count cs docId md text (splitWs (pyStrip snt))
              chunks idx pos [] 0 h1 h2 with ⟨g1, g2⟩
          exact ih _ _ _ _ _ g1 g2
        · rw [sentLoop_cons_big_emit count cs docId md text snt snts chunks
            cur ctok idx pos hP hB hc]
          rcases sentWords_spec count cs docId md text (splitWs (pyStrip snt))
              (chunks ++ [(sentEmit docId md text idx pos cur ctok).1])
              (idx + 1) (sentEmit docId md text idx pos cur ctok).2 [] 0
              (by simp [h1])
              (by subst h1;
                  simp [h2, List.range_succ, sentEmit_fst_chunk_index]) with
            ⟨g1, g2⟩
          exact ih _ _ _ _ _ g1 g2
      · by_cases hO : cs < ctok + count (pyStrip snt)
        · by_cases hc : cur = []
          · subst hc
            rw [sentLoop_cons_over_nilcur count cs docId md text snt snts
              chunks ctok idx pos hP hB hO]
            exact ih chunks [pyStrip snt] (count (pyStrip snt)) idx pos h1 h2
          · rw [sentLoop_cons_over_emit count cs docId md text snt snts chunks
              cur ctok idx pos hP hB hO hc]
            apply ih
            · simp [h1]
            · subst h1
              simp [h2, List.range_succ, sentEmit_fst_chunk_index]
        · rw [sentLoop_cons_acc count cs docId md text snt snts chunks cur
            ctok idx pos hP hB hO]
          exact ih chunks (cur ++ [pyStrip snt]) (ctok + count (pyStrip snt))
            idx pos h1 h2

/-- C1 counterexample: with a character-count tokenizer, budget 2, and
input `"aaaa\n\n\n\nbbbb"`, the recursive strategy's split produces the
pieces `["aaaa", "", "bbbb"]`; the empty middle piece is skipped but its
enumeration index is consumed, so the emitted chunk indices are `[0, 2]` —
the second returned chunk (position 1) has `chunk_index = 2 ≠ 1`:
indices are not contiguous. -/
theorem C1_counterexample :
    (chunkRecursive List.length 2 "d" [] "aaaa\n\n\n\nbbbb".toList).map
        Chunk.chunk_index = [0, 2] ∧
    ¬ (∀ (i : Nat)
        (h : i < (chunkRecursive List.length 2 "d" []
          "aaaa\n\n\n\nbbbb".toList).length),
        ((chunkRecursive List.length 2 "d" []
          "aaaa\n\n\n\nbbbb".toList).get ⟨i, h⟩).chunk_index = i) := by
  constructor
  · decide
  · intro hcontra
    exact absurd (hcontra 1 (by decide)) (by decide)

/-- C1 amended: `chunk_index` is assigned in emission order by every
strategy; for the fixed-size and sentence strategies the indices are
zero-based and contiguous (`[0, 1, ..., n-1]`), while for the recursive
strategy (and the semantic one, its alias) the indices are strictly
increasing in emission order but are the positions in the split sequence
*before* whitespace-only pieces are dropped, so they may have gaps. -/
theorem C1_amended_chunk_indices :
    (∀ (count : List Char → Nat) (cs ov : Nat) (docId : String)
        (md : List (String × PyVal)) (text : List Char) (l : List Chunk),
        chunkFixedSize count cs ov docId md text = some l →
        l.map Chunk.chunk_index = List.range l.length) ∧
    (∀ (count : List Char → Nat) (cs : Nat) (docId : String)
        (md : List (String × PyVal)) (text : List Char),
        (chunkSentence count cs docId md text).map Chunk.chunk_index =
          List.range (chunkSentence count cs docId md text).length) ∧
    (∀ (count : List Char → Nat) (cs : Nat) (docId : String)
        (md : List (String × PyVal)) (text : List Char),
        ((chunkRecursive count cs docId md text).map
          Chunk.chunk_index).Pairwise (· < ·)) := by
  refine ⟨?_, ?_, ?_⟩
  · intro count cs ov docId md text l h
    have := chunkFixedAux_indices count cs ov docId md text
      (text.length + 1) 0 0 l h
    simpa [List.range_eq_range'] using this
  · intro count cs docId md text
    exact sentLoop_spec count cs docId md text (sentSplit text) [] [] 0 0 0
      rfl rfl
  · intro count cs docId md text
    exact (chunkRecEmit_mono count docId md text
      (splitText count cs recSeps text) 0 0).2

/-- Witness for the amended C1 at concrete inputs for all three parts. -/
theorem C1_witness :
    ((chunkFixedSize List.length 5 2 "d" [] "hello world foo".toList).getD
        []).map Chunk.chunk_index =
      List.range ((chunkFixedSize List.length 5 2 "d" []
        "hello world foo".toList).getD []).length ∧
    (chunkSentence List.length 4 "d" [] "Hi there. Ok.".toList).map
        Chunk.chunk_index =
      List.range (chunkSentence List.length 4 "d" []
        "Hi there. Ok.".toList).length ∧
    ((chunkRecursive List.length 2 "d" [] "aaaa\n\n\n\nbbbb".toList).map
        Chunk.chunk_index).Pairwise (· < ·) := by
  refine ⟨?_, C1_amended_chunk_indices.2.1 List.length 4 "d" []
    "Hi there. Ok.".toList, C1_amended_chunk_indices.2.2 List.length 2 "d" []
    "aaaa\n\n\n\nbbbb".toList⟩
  rcases hr : chunkFixedSize List.length 5 2 "d" [] "hello world foo".toList
      with _ | l
  · exact absurd hr (by decide)
  · have h := C1_amended_chunk_indices.1 List.length 5 2 "d" []
      "hello world foo".toList l hr
    simpa [hr] using h

/-! ## C9 -/

theorem pyStrip_nil : pyStrip [] = [] := rfl

theorem pyStrip_nonws (s : List Char) (h : pyStrip s ≠ []) :
    ∃ c ∈ pyStrip s, pyWs c = false := by
  unfold pyStrip at h ⊢
  set t := (s.dropWhile pyWs).reverse.dropWhile pyWs with ht
  have htne : t ≠ [] := fun hnil => h (by rw [hnil]; rfl)
  refine ⟨t.head htne, ?_, ?_⟩
  · exact List.mem_reverse.2 (List.head_mem htne)
  · exact List.head_dropWhile_not pyWs _ htne

theorem pySlice_ne_nil_lt (text : List Char) (a b : Nat)
    (h : pySlice text a b ≠ []) : a < b := by
  by_contra hab
  apply h
  apply List.drop_eq_nil_of_le
  have := List.length_take_le b text
  omega

theorem pyStrip_ne_nil_of_ne (s : List Char) (h : pyStrip s ≠ []) : s ≠ [] := by
  intro hnil
  exact h (by rw [hnil]; rfl)

theorem chunkFixedAux_good (count : List Char → Nat) (cs ov : Nat)
    (docId : String) (md : List (String × PyVal)) (text : List Char) :
    ∀ (fuel start idx : Nat) (l : List Chunk),
      chunkFixedAux count cs ov docId md text fuel start idx = some l →
      ∀ c ∈ l, GoodChunk c := by
  intro fuel
  induction fuel with
  | zero =>
    intro start idx l h
    by_cases hs : start < text.length <;> simp [chunkFixedAux, hs] at h
    subst h; simp
  | succ fuel ih =>
    intro start idx l h
    by_cases hs : start < text.length
    · simp only [chunkFixedAux, hs, if_true] at h
      split at h
      · exact ih _ idx l h
      · rename_i hct
        rcases hr : chunkFixedAux count cs ov docId md text fuel
            (fixedNextStart cs ov text start) (idx + 1) with _ | rest
        · rw [hr] at h; simp at h
        · rw [hr] at h
          cases h
          intro c hc
          rcases List.mem_cons.1 hc with rfl | hmem
          · have hslice : pySlice text start (fixedEnd cs text start) ≠ [] :=
              pyStrip_ne_nil_of_ne _ hct
            have hlt := pySlice_ne_nil_lt text start (fixedEnd cs text start)
              hslice
            refine ⟨?_, hct, pyStrip_nonws _ hct⟩
            show (start : Int) < (fixedEnd cs text start : Int)
            exact_mod_cast hlt
          · exact ih _ (idx + 1) rest hr c hmem
    · simp [chunkFixedAux, hs] at h
      subst h; simp

theorem chunkRecEmit_good (count : List Char → Nat) (docId : String)
    (md : List (String × PyVal)) (text : List Char) :
    ∀ (ps : List (List Char)) (idx : Nat) (pos : Int),
      ∀ c ∈ chunkRecEmit count docId md text ps idx pos, GoodChunk c := by
  intro ps
  induction ps with
  | nil => intro idx pos c hc; simp [chunkRecEmit] at hc
  | cons p ps ih =>
    intro idx pos c hc
    by_cases hp : pyStrip p = []
    · rw [chunkRecEmit_cons_nil count docId md text p ps idx pos hp] at hc
      exact ih (idx + 1) pos c hc
    · rw [chunkRecEmit_cons_emit count docId md text p ps idx pos hp] at hc
      rcases List.mem_cons.1 hc with rfl | hmem
      · have hlen : 0 < (pyStrip p).length := List.length_pos.2 hp
        refine ⟨?_, hp, pyStrip_nonws _ hp⟩
        show pyFindFrom text (pyStrip p) pos <
          pyFindFrom text (pyStrip p) pos + ((pyStrip p).length : Int)
        have : (0 : Int) < ((pyStrip p).length : Int) := by exact_mod_cast hlen
        omega
      · exact ih (idx + 1) _ c hmem

/-- Every word produced by Python `s.split()` is nonempty and contains no
whitespace at all. -/
theorem splitWsAux_words :
    ∀ (s acc : List Char), (∀ c ∈ acc, pyWs c = false) →
      ∀ w ∈ splitWsAux s acc, w ≠ [] ∧ ∀ c ∈ w, pyWs c = false := by
  intro s
  induction s with
  | nil =>
    intro acc hacc w hw
    by_cases ha : acc = [] <;> simp [splitWsAux, ha] at hw
    subst hw
    refine ⟨by simpa using ha, ?_⟩
    intro c hc
    exact hacc c (List.mem_reverse.1 hc)
  | cons ch s ih =>
    intro acc hacc w hw
    by_cases hws : pyWs ch
    · by_cases ha : acc = []
      · rw [show splitWsAux (ch :: s) acc = splitWsAux s [] by
          simp [splitWsAux, hws, ha]] at hw
        exact ih [] (by simp) w hw
      · rw [show splitWsAux (ch :: s) acc = acc.reverse :: splitWsAux s [] by
          simp [splitWsAux, hws, ha]] at hw
        rcases List.mem_cons.1 hw with rfl | hmem
        · refine ⟨by simpa using ha, ?_⟩
          intro c hc
          exact hacc c (List.mem_reverse.1 hc)
        · exact ih [] (by simp) w hmem
    · rw [show splitWsAux (ch :: s) acc = splitWsAux s (ch :: acc) by
        simp [splitWsAux, hws]] at hw
      refine ih (ch :: acc) ?_ w hw
      intro c hc
      rcases List.mem_cons.1 hc with rfl | hmem
      · simpa using hws
      · exact hacc c hmem

theorem joinSep_cons_ne_nil (sep x : List Char) (xs : List (List Char))
    (hx : x ≠ []) : joinSep sep (x :: xs) ≠ [] := by
  cases xs <;> simp [joinSep, hx]

theorem mem_joinSep_cons (sep x : List Char) (xs : List (List Char))
    (ch : Char) (h : ch ∈ x) : ch ∈ joinSep sep (x :: xs) := by
  cases xs <;> simp [joinSep, h]

theorem sentEmit_good (docId : String) (md : List (String × PyVal))
    (text : List Char) (idx : Nat) (pos : Int) (cur : List (List Char))
    (tok : Nat) (hc : cur ≠ []) (hok : CurOk cur) :
    GoodChunk (sentEmit docId md text idx pos cur tok).1 := by
  rcases cur with _ | ⟨x, xs⟩
  · exact absurd rfl hc
  · rcases hok x (List.mem_cons_self x xs) with ⟨hx, ch, hch, hws⟩
    have hne : joinSep [' '] (x :: xs) ≠ [] := joinSep_cons_ne_nil _ x xs hx
    have hlen : 0 < (joinSep [' '] (x :: xs)).length := List.length_pos.2 hne
    refine ⟨?_, hne, ch, mem_joinSep_cons _ x xs ch hch, hws⟩
    show pyFindFrom text (joinSep [' '] (x :: xs)) pos <
      pyFindFrom text (joinSep [' '] (x :: xs)) pos +
        ((joinSep [' '] (x :: xs)).length : Int)
    have : (0 : Int) < ((joinSep [' '] (x :: xs)).length : Int) := by
      exact_mod_cast hlen
    omega

theorem sentWords_good (count : List Char → Nat) (cs : Nat) (docId : String)
    (md : List (String × PyVal)) (text : List Char) :
    ∀ (ws : List (List Char)) (chunks : List Chunk) (idx : Nat) (pos : Int)
      (temp : List (List Char)) (ttok : Nat),
      (∀ c ∈ chunks, GoodChunk c) → CurOk temp →
      (∀ w ∈ ws, w ≠ [] ∧ ∀ c ∈ w, pyWs c = false) →
      ((∀ c ∈ (sentWords count cs docId md text ws chunks idx pos temp
          ttok).1, GoodChunk c) ∧
       CurOk (sentWords count cs docId md text ws chunks idx pos temp
          ttok).2.2.2.1) := by
  intro ws
  induction ws with
  | nil => intro chunks idx pos temp ttok hch htemp _; exact ⟨hch, htemp⟩
  | cons w ws ih =>
    intro chunks idx pos temp ttok hch htemp hws
    have hw := hws w (List.mem_cons_self w ws)
    have hwok : CurOk [w] := by
      intro x hx
      rcases List.mem_singleton.1 hx with rfl
      refine ⟨hw.1, ?_⟩
      rcases List.exists_mem_of_ne_nil x hw.1 with ⟨c, hcmem⟩
      exact ⟨c, hcmem, hw.2 c hcmem⟩
    have hws' : ∀ v ∈ ws, v ≠ [] ∧ ∀ c ∈ v, pyWs c = false :=
      fun v hv => hws v (List.mem_cons_of_mem w hv)
    by_cases hO : cs < ttok + count w
    · by_cases ht : temp = []
      · subst ht
        rw [sentWords_cons_over_nilTemp count cs docId md text w ws chunks idx
          pos ttok hO]
        exact ih chunks idx pos [w] (count w) hch hwok hws'
      · rw [sentWords_cons_over_emit count cs docId md text w ws chunks idx
          pos temp ttok hO ht]
        refine ih _ _ _ _ _ ?_ hwok hws'
        intro c hc
        rcases List.mem_append.1 hc with hmem | hmem
        · exact hch c hmem
        · rcases List.mem_singleton.1 hmem with rfl
          exact sentEmit_good docId md text idx pos temp ttok ht htemp
    · rw [sentWords_cons_acc count cs docId md text w ws chunks idx pos temp
        ttok hO]
      refine ih _ _ _ _ _ hch ?_ hws'
      intro x hx
      rcases List.mem_append.1 hx with hmem | hmem
      · exact htemp x hmem
      · rcases List.mem_singleton.1 hmem with rfl
        exact hwok x (List.mem_singleton.2 rfl)

theorem sentLoop_good (count : List Char → Nat) (cs : Nat) (docId : String)
    (md : List (String × PyVal)) (text : List Char) :
    ∀ (snts : List (List Char)) (chunks : List Chunk)
      (cur : List (List Char)) (ctok idx : Nat) (pos : Int),
      (∀ c ∈ chunks, GoodChunk c) → CurOk cur →
      ∀ c ∈ sentLoop count cs docId md text snts chunks cur ctok idx pos,
        GoodChunk c := by
  intro snts
  induction snts with
  | nil =>
    intro chunks cur ctok idx pos hch hcur c hc
    by_cases hne : cur = []
    · subst hne
      rw [sentLoop_nil_nilcur count cs docId md text chunks ctok idx pos] at hc
      exact hch c hc
    · rw [sentLoop_nil_emit count cs docId md text chunks cur ctok idx pos
        hne] at hc
      rcases List.mem_append.1 hc with hmem | hmem
      · exact hch c hmem
      · rcases List.mem_singleton.1 hmem with rfl
        exact sentEmit_good docId md text idx pos cur ctok hne hcur
  | cons snt snts ih =>
    intro chunks cur ctok idx pos hch hcur c hc
    by_cases hP : pyStrip snt = []
    · rw [sentLoop_cons_ws count cs docId md text snt snts chunks cur ctok idx
        pos hP] at hc
      exact ih chunks cur ctok idx pos hch hcur c hc
    · have hsok : CurOk [pyStrip snt] := by
        intro x hx
        rcases List.mem_singleton.1 hx with rfl
        exact ⟨hP, pyStrip_nonws _ hP⟩
      have hwords : ∀ w ∈ splitWs (pyStrip snt),
          w ≠ [] ∧ ∀ ch ∈ w, pyWs ch = false :=
        fun w hw => splitWsAux_words (pyStrip snt) [] (by simp) w hw
      by_cases hB : cs < count (pyStrip snt)
      · by_cases hne : cur = []
        · subst hne
          rw [sentLoop_cons_big_nilcur count cs docId md text snt snts chunks
            ctok idx pos hP hB] at hc
          rcases sentWords_good count cs docId md text (splitWs (pyStrip snt))
              chunks idx pos [] 0 hch (by intro x hx; simp at hx) hwords with
            ⟨g1, g2⟩
          refine ih _ _ _ _ _ g1 ?_ c hc
          split
          · intro x hx; simp at hx
          · exact g2
        · rw [sentLoop_cons_big_emit count cs docId md text snt snts chunks
            cur ctok idx pos hP hB hne] at hc
          rcases sentWords_good count cs docId md text (splitWs (pyStrip snt))
              (chunks ++ [(sentEmit docId md text idx pos cur ctok).1])
              (idx + 1) (sentEmit docId md text idx pos cur ctok).2 [] 0
              (by
                intro x hx
                rcases List.mem_append.1 hx with hmem | hmem
                · exact hch x hmem
                · rcases List.mem_singleton.1 hmem with rfl
                  exact sentEmit_good docId md text idx pos cur ctok hne hcur)
              (by intro x hx; simp at hx) hwords with ⟨g1, g2⟩
          refine ih _ _ _ _ _ g1 ?_ c hc
          split
          · intro x hx; simp at hx
          · exact g2
      · by_cases hO : cs < ctok + count (pyStrip snt)
        · by_cases hne : cur = []
          · subst hne
            rw [sentLoop_cons_over_nilcur count cs docId md text snt snts
              chunks ctok idx pos hP hB hO] at hc
            exact ih chunks [pyStrip snt] (count (pyStrip snt)) idx pos hch
              hsok c hc
          · rw [sentLoop_cons_over_emit count cs docId md text snt snts chunks
              cur ctok idx pos hP hB hO hne] at hc
            refine ih _ _ _ _ _ ?_ hsok c hc
            intro x hx
            rcases List.mem_append.1 hx with hmem | hmem
            · exact hch x hmem
            · rcases List.mem_singleton.1 hmem with rfl
              exact sentEmit_good docId md text idx pos cur ctok hne hcur
        · rw [sentLoop_cons_acc count cs docId md text snt snts chunks cur
            ctok idx pos hP hB hO] at hc
          refine ih _ _ _ _ _ hch ?_ c hc
          intro x hx
          rcases List.mem_append.1 hx with hmem | hmem
          · exact hcur x hmem
          · rcases List.mem_singleton.1 hmem with rfl
            exact hsok _ (List.mem_singleton.2 rfl)

/-- C9: every chunk emitted by any strategy (fixed-size, recursive,
sentence, and semantic — the recursive alias) has `start_char < end_char`,
nonempty text, and text that is not whitespace-only. -/
theorem C9_chunk_validity :
    ∀ (count : List Char → Nat) (cs ov : Nat) (docId : String)
      (md : List (String × PyVal)) (text : List Char) (strat : ChunkStrategy)
      (l : List Chunk),
      chunkDocument count cs ov docId md text strat = some l →
      ∀ c ∈ l, GoodChunk c := by
  intro count cs ov docId md text strat l h c hc
  cases strat with
  | fixed_size =>
    exact chunkFixedAux_good count cs ov docId md text (text.length + 1) 0 0 l
      h c hc
  | semantic =>
    cases h
    exact chunkRecEmit_good count docId md text _ 0 0 c hc
  | recursive =>
    cases h
    exact chunkRecEmit_good count docId md text _ 0 0 c hc
  | sentence =>
    cases h
    exact sentLoop_good count cs docId md text (sentSplit text) [] [] 0 0 0
      (by intro x hx; simp at hx) (by intro x hx; simp at hx) c hc

/-- Witness for C9 at a concrete strategy dispatch and input. -/
theorem C9_witness :
    GoodChunk
      { text := "ab".toList
        chunk_index := 0
        doc_id := "d"
        start_char := 0
        end_char := 2
        token_count := 2
        metadata := [("strategy", PyVal.vstr "recursive")] } :=
  C9_chunk_validity List.length 4 0 "d" [] "ab".toList .recursive
    [{ text := "ab".toList
       chunk_index := 0
       doc_id := "d"
       start_char := 0
       end_char := 2
       token_count := 2
       metadata := [("strategy", PyVal.vstr "recursive")] }]
    (by decide) _ (by decide)

/-! ## C2 -/

theorem firstOccur_single (c : Char) :
    ∀ s : List Char,
      (firstOccur [c] s = none → c ∉ s) ∧
      (∀ i, firstOccur [c] s = some i → c ∉ s.take i ∧ i + 1 ≤ s.length) := by
  intro s
  induction s with
  | nil =>
    constructor
    · intro _ h
      simp at h
    · intro i hi
      simp [firstOccur] at hi
  | cons a rest ih =>
    have hpre : List.isPrefixOf [c] (a :: rest) = (c == a) := by
      simp [List.isPrefixOf]
    constructor
    · intro hnone hmem
      simp only [firstOccur, hpre] at hnone
      rcases hb : (c == a) with _ | _
      · rw [hb] at hnone
        simp only [Bool.false_eq_true, if_false] at hnone
        rcases hro : firstOccur [c] rest with _ | j
        · rcases List.mem_cons.1 hmem with rfl | hmem'
          · simp at hb
          · exact ih.1 hro hmem'
        · rw [hro] at hnone
          simp at hnone
      · rw [hb] at hnone
        simp at hnone
    · intro i hi
      simp only [firstOccur, hpre] at hi
      rcases hb : (c == a) with _ | _
      · rw [hb] at hi
        simp only [Bool.false_eq_true, if_false] at hi
        rcases hro : firstOccur [c] rest with _ | j
        · rw [hro] at hi
          simp at hi
        · rw [hro] at hi
          cases hi
          rcases ih.2 j hro with ⟨hmem, hlen⟩
          constructor
          · show c ∉ List.take (j + 1) (a :: rest)
            rw [List.take_succ_cons]
            intro hmem'
            rcases List.mem_cons.1 hmem' with rfl | hmem''
            · simp at hb
            · exact hmem hmem''
          · show (j + 1) + 1 ≤ (a :: rest).length
            simp only [List.length_cons]
            omega
      · rw [hb] at hi
        simp only [if_true] at hi
        cases hi
        refine ⟨by simp, by simp⟩

theorem pySplitAux_single_nosep (c : Char) :
    ∀ (fuel : Nat) (s : List Char), s.length ≤ fuel →
      ∀ p ∈ pySplitAux [c] fuel s, c ∉ p := by
  intro fuel
  induction fuel with
  | zero =>
    intro s hlen p hp
    have hs : s = [] := List.length_eq_zero.1 (by omega)
    subst hs
    simp [pySplitAux] at hp
    subst hp
    simp
  | succ fuel ih =>
    intro s hlen p hp
    rcases hro : firstOccur [c] s with _ | i
    · simp only [pySplitAux, hro] at hp
      rcases List.mem_singleton.1 hp with rfl
      exact (firstOccur_single c _).1 hro
    · simp only [pySplitAux, hro] at hp
      rcases (firstOccur_single c s).2 i hro with ⟨htake, hbound⟩
      rcases List.mem_cons.1 hp with rfl | hmem
      · exact htake
      · refine ih (s.drop (i + 1)) ?_ p hmem
        simp only [List.length_drop]
        omega

theorem pySplit_single_nosep (c : Char) (s : List Char) :
    ∀ p ∈ pySplit [c] s, c ∉ p := by
  intro p hp
  exact pySplitAux_single_nosep c (s.length + 1) s (by omega) p hp

theorem splitFold_mem (count : List Char → Nat) (cs : Nat) (sep : List Char)
    (recur : List Char → List (List Char)) (P : List Char → Prop)
    (hjoin : ∀ l : List (List Char), (l.map count).sum ≤ cs →
      P (joinSep sep l)) :
    ∀ (splits result cur : List (List Char)) (size : Nat),
      (∀ p ∈ result, P p) →
      size = (cur.map count).sum →
      size ≤ cs →
      (∀ s ∈ splits, cs < count s → ∀ p ∈ recur s, P p) →
      ∀ p ∈ splitFold count cs sep recur splits result cur size, P p := by
  intro splits
  induction splits with
  | nil =>
    intro result cur size hres hsize hbound _ p hp
    simp only [splitFold] at hp
    split at hp
    · exact hres p hp
    · rcases List.mem_append.1 hp with hmem | hmem
      · exact hres p hmem
      · rcases List.mem_singleton.1 hmem with rfl
        exact hjoin cur (by omega)
  | cons s more ih =>
    intro result cur size hres hsize hbound hrec p hp
    have hrec' : ∀ v ∈ more, cs < count v → ∀ q ∈ recur v, P q :=
      fun v hv => hrec v (List.mem_cons_of_mem s hv)
    simp only [splitFold] at hp
    split at hp
    · rename_i hbig
      refine ih _ [] 0 ?_ (by simp) (by omega) hrec' p hp
      intro q hq
      rcases List.mem_append.1 hq with hmem | hmem
      · split at hmem
        · exact hres q hmem
        · rcases List.mem_append.1 hmem with hmem' | hmem'
          · exact hres q hmem'
          · rcases List.mem_singleton.1 hmem' with rfl
            exact hjoin cur (by omega)
      · exact hrec s (List.mem_cons_self s more) hbig q hmem
    · split at hp
      · split at hp
        · exact ih _ cur size hres hsize hbound hrec' p hp
        · rename_i hover hcur
          rename_i hsmall
          refine ih _ [s] (count s) ?_ (by simp) (by omega) hrec' p hp
          intro q hq
          rcases List.mem_append.1 hq with hmem | hmem
          · exact hres q hmem
          · rcases List.mem_singleton.1 hmem with rfl
            exact hjoin cur (by omega)
      · rename_i hsmall hfit
        refine ih _ (cur ++ [s]) (size + count s) hres ?_ (by omega) hrec' p hp
        simp [hsize]

theorem splitLevel_mem (count : List Char → Nat) (cs : Nat) (sep : List Char)
    (recur : List Char → List (List Char)) (P : List Char → Prop)
    (hjoin : ∀ l : List (List Char), (l.map count).sum ≤ cs →
      P (joinSep sep l))
    (hbase : ∀ t, count t ≤ cs → P t) (t : List Char)
    (hrec : ∀ s ∈ pySplit sep t, cs < count s → ∀ p ∈ recur s, P p) :
    ∀ p ∈ splitLevel count cs sep recur t, P p := by
  intro p hp
  unfold splitLevel at hp
  split at hp
  · rcases List.mem_singleton.1 hp with rfl
    exact hbase _ (by assumption)
  · exact splitFold_mem count cs sep recur P hjoin (pySplit sep t) [] [] 0
      (by simp) (by simp) (by omega) hrec p hp

theorem splitLevel_lift (count : List Char → Nat) (cs : Nat) (sep : List Char)
    (recur : List Char → List (List Char)) (P : List Char → Prop)
    (hjoin : ∀ l : List (List Char), (l.map count).sum ≤ cs →
      P (joinSep sep l))
    (hbase : ∀ t, count t ≤ cs → P t)
    (hinner : ∀ s p, p ∈ recur s → P p) :
    ∀ t p, p ∈ splitLevel count cs sep recur t → P p := by
  intro t p hp
  exact splitLevel_mem count cs sep recur P hjoin hbase t
    (fun s _ _ q hq => hinner s q hq) p hp

theorem splitText_recSeps_mem (count : List Char → Nat) (cs : Nat)
    (Hsub : ∀ sep ∈ recSeps, ∀ l : List (List Char),
      count (joinSep sep l) ≤ (l.map count).sum) :
    ∀ t p, p ∈ splitText count cs recSeps t →
      count p ≤ cs ∨ ' ' ∉ p := by
  set P : List Char → Prop := fun p => count p ≤ cs ∨ ' ' ∉ p with hP
  have hjoin : ∀ sep ∈ recSeps, ∀ l : List (List Char),
      (l.map count).sum ≤ cs → P (joinSep sep l) :=
    fun sep hsep l hl => Or.inl (le_trans (Hsub sep hsep l) hl)
  have hbase : ∀ t, count t ≤ cs → P t := fun t h => Or.inl h
  have h1 : ∀ t p, p ∈ splitText count cs [[' ']] t → P p := by
    intro t p hp
    refine splitLevel_mem count cs [' '] (splitText count cs []) P
      (hjoin [' '] (by simp [recSeps])) hbase t ?_ p hp
    intro s hs _ q hq
    rcases List.mem_singleton.1 hq with rfl
    exact Or.inr (pySplit_single_nosep ' ' t _ hs)
  have h2 : ∀ t p, p ∈ splitText count cs [['.', ' '], [' ']] t → P p := by
    intro t p hp
    exact splitLevel_lift count cs ['.', ' '] (splitText count cs [[' ']]) P
      (hjoin ['.', ' '] (by simp [recSeps])) hbase
      (fun s q hq => h1 s q hq) t p hp
  have h3 : ∀ t p,
      p ∈ splitText count cs [['\n'], ['.', ' '], [' ']] t → P p := by
    intro t p hp
    exact splitLevel_lift count cs ['\n']
      (splitText count cs [['.', ' '], [' ']]) P
      (hjoin ['\n'] (by simp [recSeps])) hbase
      (fun s q hq => h2 s q hq) t p hp
  intro t p hp
  exact splitLevel_lift count cs ['\n', '\n']
    (splitText count cs [['\n'], ['.', ' '], [' ']]) P
    (hjoin ['\n', '\n'] (by simp [recSeps])) hbase
    (fun s q hq => h3 s q hq) t p hp

theorem chunkRecEmit_shape (count : List Char → Nat) (docId : String)
    (md : List (String × PyVal)) (text : List Char) :
    ∀ (ps : List (List Char)) (idx : Nat) (pos : Int) (c : Chunk),
      c ∈ chunkRecEmit count docId md text ps idx pos →
      ∃ p ∈ ps, c.text = pyStrip p ∧ c.token_count = count (pyStrip p) := by
  intro ps
  induction ps with
  | nil => intro idx pos c hc; simp [chunkRecEmit] at hc
  | cons p ps ih =>
    intro idx pos c hc
    by_cases hp : pyStrip p = []
    · rw [chunkRecEmit_cons_nil count docId md text p ps idx pos hp] at hc
      rcases ih (idx + 1) pos c hc with ⟨q, hq, hh⟩
      exact ⟨q, List.mem_cons_of_mem p hq, hh⟩
    · rw [chunkRecEmit_cons_emit count docId md text p ps idx pos hp] at hc
      rcases List.mem_cons.1 hc with rfl | hmem
      · exact ⟨p, List.mem_cons_self p ps, rfl, rfl⟩
      · rcases ih (idx + 1) _ c hmem with ⟨q, hq, hh⟩
        exact ⟨q, List.mem_cons_of_mem p hq, hh⟩

theorem pyStrip_sublist (s : List Char) : (pyStrip s).Sublist s := by
  unfold pyStrip
  have h1 : ((s.dropWhile pyWs).reverse.dropWhile pyWs).Sublist
      (s.dropWhile pyWs).reverse := List.dropWhile_sublist _
  have h2 := h1.reverse
  rw [List.reverse_reverse] at h2
  exact h2.trans (List.dropWhile_sublist _)

/-- C2 counterexample: with a character-count tokenizer and budget 4, the
input `"ab cd"` yields the single chunk `"ab cd"` with `token_count = 5 > 4`
although that chunk is *not* an irreducible span — it contains the
separator `' '` (the greedy grouping sums the piece counts `2 + 2 ≤ 4` and
never charges for the joining separator). -/
theorem C2_counterexample :
    (chunkRecursive List.length 4 "d" [] "ab cd".toList).map
        Chunk.token_count = [5] ∧
    (chunkRecursive List.length 4 "d" [] "ab cd".toList).map Chunk.text =
        ["ab cd".toList] ∧
    ' ' ∈ "ab cd".toList ∧ 4 < 5 := by
  refine ⟨by decide, by decide, by decide, by decide⟩

/-- C2 amended: for the recursive strategy, every chunk's token count is
within the configured budget or the chunk contains no `' '` (it is an
irreducible span that none of the separators can break further), *provided*
the token counter is sub-additive across separator joins (separators
contribute no tokens) and monotone under stripping; without that proviso a
joined chunk may exceed the budget by exactly the uncounted separator
tokens, as the counterexample shows. -/
theorem C2_amended_token_budget :
    ∀ (count : List Char → Nat) (cs : Nat) (docId : String)
      (md : List (String × PyVal)) (text : List Char),
      (∀ sep ∈ recSeps, ∀ l : List (List Char),
        count (joinSep sep l) ≤ (l.map count).sum) →
      (∀ s, count (pyStrip s) ≤ count s) →
      ∀ c ∈ chunkRecursive count cs docId md text,
        c.token_count ≤ cs ∨ ' ' ∉ c.text := by
  intro count cs docId md text Hsub Hstrip c hc
  rcases chunkRecEmit_shape count docId md text
      (splitText count cs recSeps text) 0 0 c hc with ⟨p, hp, htext, htok⟩
  rcases splitText_recSeps_mem count cs Hsub text p hp with hle | hnos
  · exact Or.inl (by rw [htok]; exact le_trans (Hstrip p) hle)
  · refine Or.inr ?_
    rw [htext]
    intro hmem
    exact hnos ((pyStrip_sublist p).subset hmem)

theorem countA_append (x y : List Char) :
    countA (x ++ y) = countA x + countA y := by
  simp [countA, List.filter_append]

theorem countA_join (sep : List Char) (h : countA sep = 0) :
    ∀ l : List (List Char), countA (joinSep sep l) ≤ (l.map countA).sum := by
  intro l
  induction l with
  | nil => simp [joinSep, countA]
  | cons x xs ih =>
    cases xs with
    | nil => simp [joinSep]
    | cons y ys =>
      have : joinSep sep (x :: y :: ys) = x ++ sep ++ joinSep sep (y :: ys) :=
        rfl
      rw [this, countA_append, countA_append, h]
      simp only [List.map_cons, List.sum_cons] at ih ⊢
      omega

theorem countA_strip (s : List Char) : countA (pyStrip s) ≤ countA s := by
  have := ((pyStrip_sublist s).filter (fun c => c = 'a')).length_le
  simpa [countA] using this

/-- Witness for the amended C2 at the counter `countA` (which satisfies
both hypotheses) and a concrete input. -/
theorem C2_witness :
    ({ text := "ab".toList
       chunk_index := 0
       doc_id := "d"
       start_char := 0
       end_char := 2
       token_count := 1
       metadata := [("strategy", PyVal.vstr "recursive")] } : Chunk).token_count
        ≤ 1 ∨
    ' ' ∉ ({ text := "ab".toList
             chunk_index := 0
             doc_id := "d"
             start_char := 0
             end_char := 2
             token_count := 1
             metadata := [("strategy", PyVal.vstr "recursive")] } : Chunk).text :=
  C2_amended_token_budget countA 1 "d" [] "ab".toList
    (by
      intro sep hsep l
      refine countA_join sep ?_ l
      fin_cases hsep <;> decide)
    (fun s => countA_strip s)
    _ (by decide)

/-! ## C3 -/

theorem processBatch_length (dim bs : Nat) (br : Nat → Option (List Vec))
    (ie : Nat → Option Vec) (texts : List (List Char))
    (Hresp : ∀ i r, br i = some r →
      r.length = (listSlice texts (i * bs)
        (min ((i + 1) * bs) texts.length)).length) (i : Nat) :
    (processBatch dim bs br ie texts i).length =
      (listSlice texts (i * bs) (min ((i + 1) * bs) texts.length)).length := by
  unfold processBatch
  rcases h : br i with _ | r
  · simp
  · simp [Hresp i r h]

theorem listSlice_batch_length (texts : List (List Char)) (bs i : Nat) :
    (listSlice texts (i * bs) (min ((i + 1) * bs) texts.length)).length =
      min ((i + 1) * bs) texts.length - min (i * bs) texts.length := by
  unfold listSlice
  rw [List.length_drop, List.length_take]
  have h1 : (i + 1) * bs = i * bs + bs := by ring
  rw [h1]
  omega

theorem sum_sub_telescope (f : Nat → Nat) (hmono : ∀ i, f i ≤ f (i + 1)) :
    ∀ k, ((List.range k).map (fun i => f (i + 1) - f i)).sum = f k - f 0 := by
  intro k
  induction k with
  | zero => simp
  | succ k ih =>
    have h0k : f 0 ≤ f k := by
      clear ih
      induction k with
      | zero => exact le_refl _
      | succ k ih2 => exact le_trans ih2 (hmono k)
    rw [List.range_succ]
    simp only [List.map_append, List.map_cons, List.map_nil, List.sum_append,
      List.sum_cons, List.sum_nil, ih]
    have := hmono k
    omega

theorem embPrefix_length (dim bs : Nat) (br : Nat → Option (List Vec))
    (ie : Nat → Option Vec) (texts : List (List Char))
    (Hresp : ∀ i r, br i = some r →
      r.length = (listSlice texts (i * bs)
        (min ((i + 1) * bs) texts.length)).length) (i : Nat) :
    (((List.range i).map (processBatch dim bs br ie texts)).flatten).length =
      min (i * bs) texts.length := by
  rw [List.length_flatten, List.map_map]
  have hcong : ∀ j ∈ List.range i,
      (List.length ∘ processBatch dim bs br ie texts) j =
        (fun j => min ((j + 1) * bs) texts.length -
          min (j * bs) texts.length) j := by
    intro j _
    simp only [Function.comp]
    rw [processBatch_length dim bs br ie texts Hresp j,
      listSlice_batch_length]
  rw [List.map_congr_left hcong]
  have hmono : ∀ j : Nat, min (j * bs) texts.length ≤
      min ((j + 1) * bs) texts.length := by
    intro j
    have : j * bs ≤ (j + 1) * bs := by nlinarith
    omega
  rw [sum_sub_telescope (fun j => min (j * bs) texts.length) hmono i]
  simp

theorem ceil_div_mul_ge (n bs : Nat) (h : 1 ≤ bs) :
    n ≤ ((n + bs - 1) / bs) * bs := by
  rcases Nat.eq_zero_or_pos n with rfl | hn
  · simp
  · have h2 := Nat.div_add_mod (n + bs - 1) bs
    have h3 : (n + bs - 1) % bs < bs := Nat.mod_lt _ (by omega)
    have h4 : ((n + bs - 1) / bs) * bs = bs * ((n + bs - 1) / bs) := by ring
    omega

/-- C3 amended: for every list of texts and every batch size ≥ 1, assuming
each successful group call returns one embedding per input of its group,
`generate_embeddings_batch` returns exactly one vector per input text in
input order, and an item whose group call raised and whose per-item retry
also raised receives the zero vector of the configured dimension; with
batch size 0 the function raises (`ZeroDivisionError`) instead, as the
counterexample shows. -/
theorem C3_amended_embed_batch :
    ∀ (dim bs : Nat) (br : Nat → Option (List Vec)) (ie : Nat → Option Vec)
      (texts : List (List Char)),
      1 ≤ bs →
      (∀ i r, br i = some r →
        r.length = (listSlice texts (i * bs)
          (min ((i + 1) * bs) texts.length)).length) →
      ∃ l, generateEmbeddingsBatch dim bs br ie texts = some l ∧
        l.length = texts.length ∧
        (∀ (k : Nat) (hk : k < l.length),
          br (k / bs) = none → ie k = none →
          l.get ⟨k, hk⟩ = List.replicate dim 0) := by
  intro dim bs br ie texts hbs Hresp
  have hbs0 : ¬ bs = 0 := by omega
  set n := texts.length with hn
  set nb := (n + bs - 1) / bs with hnb
  refine ⟨((List.range nb).map (processBatch dim bs br ie texts)).flatten,
    by simp [generateEmbeddingsBatch, hbs0, hnb, hn], ?_, ?_⟩
  · rw [embPrefix_length dim bs br ie texts Hresp nb]
    have hge := ceil_div_mul_ge n bs hbs
    rw [← hnb] at hge
    omega
  · intro k hk hbr hie
    have hlen : (((List.range nb).map
        (processBatch dim bs br ie texts)).flatten).length = n := by
      rw [embPrefix_length dim bs br ie texts Hresp nb]
      have hge := ceil_div_mul_ge n bs hbs
      rw [← hnb] at hge
      omega
    have hkn : k < n := by rw [← hlen]; exact hk
    have hij : (k / bs) * bs + k % bs = k := by
      have := Nat.div_add_mod k bs
      have hc : (k / bs) * bs = bs * (k / bs) := by ring
      omega
    have hjbs : k % bs < bs := Nat.mod_lt _ (by omega)
    have hinb : k / bs < nb := by
      rw [Nat.div_lt_iff_lt_mul (by omega : 0 < bs)]
      have hge := ceil_div_mul_ge n bs hbs
      rw [← hnb] at hge
      calc k < n := hkn
        _ ≤ nb * bs := hge
    have hsplit : List.range nb =
        List.range (k / bs) ++
          (List.range (nb - k / bs)).map (fun x => k / bs + x) := by
      rw [← List.range_add]
      congr 1
      omega
    have htail : (List.range (nb - k / bs)).map (fun x => k / bs + x) =
        (k / bs) :: (List.range (nb - k / bs - 1)).map
          (fun x => k / bs + Nat.succ x) := by
      have hm : nb - k / bs = (nb - k / bs - 1) + 1 := by omega
      rw [hm, List.range_succ_eq_map]
      simp [List.map_map, Function.comp]
    have hdm : (k / bs) * bs ≤ k := Nat.div_mul_le_self k bs
    have hLC : ((List.range nb).map
          (processBatch dim bs br ie texts)).flatten =
        ((List.range (k / bs)).map
          (processBatch dim bs br ie texts)).flatten ++
        (processBatch dim bs br ie texts (k / bs) ++
          ((((List.range (nb - k / bs - 1)).map
            (fun x => k / bs + Nat.succ x)).map
            (processBatch dim bs br ie texts)).flatten)) := by
      conv_lhs => rw [hsplit]
      rw [List.map_append, List.flatten_append, htail]
      simp [List.map_cons]
    have hAlen : (((List.range (k / bs)).map
        (processBatch dim bs br ie texts)).flatten).length = (k / bs) * bs := by
      rw [embPrefix_length dim bs br ie texts Hresp (k / bs)]
      omega
    have hblen : (processBatch dim bs br ie texts (k / bs)).length =
        min ((k / bs + 1) * bs) n - min ((k / bs) * bs) n := by
      rw [processBatch_length dim bs br ie texts Hresp (k / bs),
        listSlice_batch_length]
    have hjlt : k - (k / bs) * bs <
        (processBatch dim bs br ie texts (k / bs)).length := by
      rw [hblen]
      have h1 : (k / bs + 1) * bs = (k / bs) * bs + bs := by ring
      omega
    -- compute the optional lookup of the flattened output at k
    have hq : (((List.range nb).map
        (processBatch dim bs br ie texts)).flatten)[k]? =
        (processBatch dim bs br ie texts (k / bs))[k - (k / bs) * bs]? := by
      rw [hLC, List.getElem?_append, if_neg (by omega), hAlen,
        List.getElem?_append, if_pos hjlt]
    -- the lookup inside the failing batch is the per-item fallback
    have hbatchlen : (listSlice texts ((k / bs) * bs)
        (min ((k / bs + 1) * bs) texts.length)).length =
        min ((k / bs + 1) * bs) n - min ((k / bs) * bs) n := by
      rw [listSlice_batch_length]
    have hjb : k - (k / bs) * bs < (listSlice texts ((k / bs) * bs)
        (min ((k / bs + 1) * bs) texts.length)).length := by
      rw [hbatchlen]
      have h1 : (k / bs + 1) * bs = (k / bs) * bs + bs := by ring
      omega
    have hpb : processBatch dim bs br ie texts (k / bs) =
        (listSlice texts ((k / bs) * bs)
          (min ((k / bs + 1) * bs) texts.length)).enum.map
          (fun p => match ie ((k / bs) * bs + p.1) with
            | some v => v
            | none => List.replicate dim 0) := by
      unfold processBatch
      rw [hbr]
    have hjenum : k - (k / bs) * bs < (listSlice texts ((k / bs) * bs)
        (min ((k / bs + 1) * bs) texts.length)).enum.length := by
      rw [List.enum_length]
      exact hjb
    have hq2 : (processBatch dim bs br ie texts (k / bs))[k -
        (k / bs) * bs]? = some (List.replicate dim 0) := by
      rw [hpb, List.getElem?_map, List.getElem?_eq_getElem hjenum,
        List.getElem_enum]
      have hkey : (k / bs) * bs + (k - (k / bs) * bs) = k := by omega
      simp only [Option.map_some']
      rw [hkey, hie]
    have hsome := List.getElem?_eq_getElem hk
    rw [hq, hq2] at hsome
    rw [List.get_eq_getElem]
    exact (Option.some.inj hsome).symm

/-- C3 counterexample: with `batch_size = 0`,
`num_batches = (len(texts) + batch_size - 1) // batch_size` raises
`ZeroDivisionError`, so no vector list (one per input) is returned at
all. -/
theorem C3_counterexample :
    generateEmbeddingsBatch 1536 0 (fun _ => none) (fun _ => none)
      ["a".toList] = none := by
  rfl

/-- Witness for the amended C3: three texts, batch size 2; the first group
call succeeds with its two embeddings, the second raises and its single
item also fails per-item, so the third output is the zero vector of the
configured dimension 2. -/
theorem C3_witness :
    generateEmbeddingsBatch 2 2 demoBatchResp demoItemEmbed demoTexts =
        some [[1], [2], [0, 0]] ∧
    ([[1], [2], [0, 0]] : List Vec).length = demoTexts.length ∧
    ([[1], [2], [0, 0]] : List Vec).get ⟨2, by decide⟩ =
      List.replicate 2 0 := by
  have h := C3_amended_embed_batch 2 2 demoBatchResp demoItemEmbed demoTexts
    (by decide)
    (by
      intro i r hr
      by_cases hi : i = 0
      · subst hi
        have : r = [[1], [2]] := by
          simpa [demoBatchResp] using hr.symm
        subst this
        decide
      · simp [demoBatchResp, hi] at hr)
  rcases h with ⟨l, hl, hlen, hz⟩
  have hconc : generateEmbeddingsBatch 2 2 demoBatchResp demoItemEmbed
      demoTexts = some [[1], [2], [0, 0]] := by decide
  rw [hconc] at hl
  cases hl
  refine ⟨hconc, hlen, ?_⟩
  exact hz 2 (by decide) (by decide) (by decide)
